import Mathlib

/-!
Verification of the LaMEM staggered-grid core: shallow embedding of the
mesh-segment / axis-discretization module (fdstag.c) and of the residual
assembly module (JacRes), together with theorems settling the frozen claims.

Fields living on the staggered grid are modelled as total functions from
integer grid indices (in C array order [k][j][i]) to real numbers; mesh
steps (the SIZE_CELL / SIZE_NODE macros of the missing header) are
modelled from the spec as abstract per-axis width functions.  All machine
floating-point arithmetic is modelled over the reals.
-/

namespace LaMEM

noncomputable section

/-! ## Solution fields for the residual assembler (JacRes) -/

/-- Ghosted solution fields and mesh steps accessed by JacResGetEffStrainRate
and JacResGetResidual.  Velocity components vx, vy, vz, pressure p and
temperature T are indexed [k][j][i] as in the C arrays.  szCellX/Y/Z are
modelled from the spec: the SIZE_CELL macro of the missing header, the local
cell width along one axis.  hxx, hyy, hzz and I2GdtCell are the elastic
stress history and inverse elastic viscosity of the cell solution
variables, supplied externally. -/
structure JacResFields where
  vx : ℤ → ℤ → ℤ → ℝ
  vy : ℤ → ℤ → ℤ → ℝ
  vz : ℤ → ℤ → ℤ → ℝ
  p : ℤ → ℤ → ℤ → ℝ
  T : ℤ → ℤ → ℤ → ℝ
  szCellX : ℤ → ℝ
  szCellY : ℤ → ℝ
  szCellZ : ℤ → ℝ
  hxx : ℤ → ℤ → ℤ → ℝ
  hyy : ℤ → ℤ → ℤ → ℝ
  hzz : ℤ → ℤ → ℤ → ℝ
  I2GdtCell : ℤ → ℤ → ℤ → ℝ

/-- Volumetric strain rate theta at a cell center, as computed and stored
into svBulk by JacResGetEffStrainRate: the sum of the three diagonal
velocity gradients, each a first difference over the local cell width. -/
def thetaCell (f : JacResFields) (k j i : ℤ) : ℝ :=
  (f.vx k j (i + 1) - f.vx k j i) / f.szCellX i +
  (f.vy k (j + 1) i - f.vy k j i) / f.szCellY j +
  (f.vz (k + 1) j i - f.vz k j i) / f.szCellZ k

/-- The total deviatoric strain rate svCell.dxx stored by
JacResGetEffStrainRate: diagonal velocity gradient minus theta/3. -/
def dxxCell (f : JacResFields) (k j i : ℤ) : ℝ :=
  (f.vx k j (i + 1) - f.vx k j i) / f.szCellX i - thetaCell f k j i / 3.0

/-- The total deviatoric strain rate svCell.dyy stored by
JacResGetEffStrainRate. -/
def dyyCell (f : JacResFields) (k j i : ℤ) : ℝ :=
  (f.vy k (j + 1) i - f.vy k j i) / f.szCellY j - thetaCell f k j i / 3.0

/-- The total deviatoric strain rate svCell.dzz stored by
JacResGetEffStrainRate. -/
def dzzCell (f : JacResFields) (k j i : ℤ) : ℝ :=
  (f.vz (k + 1) j i - f.vz k j i) / f.szCellZ k - thetaCell f k j i / 3.0

/-- Effective deviatoric strain rate written to the dxx array (elastic
correction added), as in JacResGetEffStrainRate. -/
def dxxEff (f : JacResFields) (k j i : ℤ) : ℝ :=
  dxxCell f k j i + f.hxx k j i * f.I2GdtCell k j i

/-- Effective deviatoric strain rate written to the dyy array. -/
def dyyEff (f : JacResFields) (k j i : ℤ) : ℝ :=
  dyyCell f k j i + f.hyy k j i * f.I2GdtCell k j i

/-- Effective deviatoric strain rate written to the dzz array. -/
def dzzEff (f : JacResFields) (k j i : ℤ) : ℝ :=
  dzzCell f k j i + f.hzz k j i * f.I2GdtCell k j i

/-- Outputs of the external volumetric constitutive closure VolConstEq,
modelled per the spec interface as pure per-cell quantities: effective
density, inverse bulk viscosity times dt, thermal expansion, and
pressure/temperature history. -/
structure VolConstOut where
  rho : ℤ → ℤ → ℤ → ℝ
  IKdt : ℤ → ℤ → ℤ → ℝ
  alpha : ℤ → ℤ → ℤ → ℝ
  pn : ℤ → ℤ → ℤ → ℝ
  Tn : ℤ → ℤ → ℤ → ℝ

/-- Continuity residual written by JacResGetResidual at a cell center:
gc[k][j][i] = -IKdt*(pc - pn) - theta + alpha*(Tc - Tn)/dt, where theta is
the volumetric strain rate stored by JacResGetEffStrainRate (the external
VolConstEq call does not modify it, per its interface contract). -/
def JacResContinuityRes (f : JacResFields) (vol : VolConstOut) (dt : ℝ)
    (k j i : ℤ) : ℝ :=
  -(vol.IKdt k j i) * (f.p k j i - vol.pn k j i) - thetaCell f k j i +
    vol.alpha k j i * (f.T k j i - vol.Tn k j i) / dt

/-! ## Second invariants gathered by JacResGetResidual -/

/-- Second invariant J2Inv formed at a cell center by JacResGetResidual:
half the sum of squared diagonal components plus quarter-weighted squares
of the four adjacent samples of each off-diagonal component. -/
def j2InvCell (dxx dyy dzz dxy dxz dyz : ℤ → ℤ → ℤ → ℝ) (k j i : ℤ) : ℝ :=
  0.5 * (dxx k j i * dxx k j i + dyy k j i * dyy k j i + dzz k j i * dzz k j i) +
  0.25 * (dxy k j i * dxy k j i + dxy k (j + 1) i * dxy k (j + 1) i +
          dxy k j (i + 1) * dxy k j (i + 1) + dxy k (j + 1) (i + 1) * dxy k (j + 1) (i + 1)) +
  0.25 * (dxz k j i * dxz k j i + dxz (k + 1) j i * dxz (k + 1) j i +
          dxz k j (i + 1) * dxz k j (i + 1) + dxz (k + 1) j (i + 1) * dxz (k + 1) j (i + 1)) +
  0.25 * (dyz k j i * dyz k j i + dyz (k + 1) j i * dyz (k + 1) j i +
          dyz k (j + 1) i * dyz k (j + 1) i + dyz (k + 1) (j + 1) i * dyz (k + 1) (j + 1) i)

/-- Second invariant formed at an xy edge point by JacResGetResidual, with
index clamping at the domain boundaries (mx, my are the maximum node
indices): self square plus 0.125-weighted diagonal samples plus
0.25-weighted samples of the two other off-diagonal components. -/
def j2InvEdgeXY (dxx dyy dzz dxy dxz dyz : ℤ → ℤ → ℤ → ℝ) (mx my k j i : ℤ) : ℝ :=
  let I1 := if i = mx then i - 1 else i
  let I2 := if i - 1 = -1 then i - 1 + 1 else i - 1
  let J1 := if j = my then j - 1 else j
  let J2 := if j - 1 = -1 then j - 1 + 1 else j - 1
  dxy k j i * dxy k j i +
  0.125 * (dxx k J1 I1 * dxx k J1 I1 + dxx k J1 I2 * dxx k J1 I2 +
           dxx k J2 I1 * dxx k J2 I1 + dxx k J2 I2 * dxx k J2 I2) +
  0.125 * (dyy k J1 I1 * dyy k J1 I1 + dyy k J1 I2 * dyy k J1 I2 +
           dyy k J2 I1 * dyy k J2 I1 + dyy k J2 I2 * dyy k J2 I2) +
  0.125 * (dzz k J1 I1 * dzz k J1 I1 + dzz k J1 I2 * dzz k J1 I2 +
           dzz k J2 I1 * dzz k J2 I1 + dzz k J2 I2 * dzz k J2 I2) +
  0.25 * (dxz k J1 i * dxz k J1 i + dxz (k + 1) J1 i * dxz (k + 1) J1 i +
          dxz k J2 i * dxz k J2 i + dxz (k + 1) J2 i * dxz (k + 1) J2 i) +
  0.25 * (dyz k j I1 * dyz k j I1 + dyz (k + 1) j I1 * dyz (k + 1) j I1 +
          dyz k j I2 * dyz k j I2 + dyz (k + 1) j I2 * dyz (k + 1) j I2)

/-- Second invariant formed at an xz edge point by JacResGetResidual. -/
def j2InvEdgeXZ (dxx dyy dzz dxy dxz dyz : ℤ → ℤ → ℤ → ℝ) (mx mz k j i : ℤ) : ℝ :=
  let I1 := if i = mx then i - 1 else i
  let I2 := if i - 1 = -1 then i - 1 + 1 else i - 1
  let K1 := if k = mz then k - 1 else k
  let K2 := if k - 1 = -1 then k - 1 + 1 else k - 1
  dxz k j i * dxz k j i +
  0.125 * (dxx K1 j I1 * dxx K1 j I1 + dxx K1 j I2 * dxx K1 j I2 +
           dxx K2 j I1 * dxx K2 j I1 + dxx K2 j I2 * dxx K2 j I2) +
  0.125 * (dyy K1 j I1 * dyy K1 j I1 + dyy K1 j I2 * dyy K1 j I2 +
           dyy K2 j I1 * dyy K2 j I1 + dyy K2 j I2 * dyy K2 j I2) +
  0.125 * (dzz K1 j I1 * dzz K1 j I1 + dzz K1 j I2 * dzz K1 j I2 +
           dzz K2 j I1 * dzz K2 j I1 + dzz K2 j I2 * dzz K2 j I2) +
  0.25 * (dxy K1 j i * dxy K1 j i + dxy K1 (j + 1) i * dxy K1 (j + 1) i +
          dxy K2 j i * dxy K2 j i + dxy K2 (j + 1) i * dxy K2 (j + 1) i) +
  0.25 * (dyz k j I1 * dyz k j I1 + dyz k (j + 1) I1 * dyz k (j + 1) I1 +
          dyz k j I2 * dyz k j I2 + dyz k (j + 1) I2 * dyz k (j + 1) I2)

/-- Second invariant formed at a yz edge point by JacResGetResidual. -/
def j2InvEdgeYZ (dxx dyy dzz dxy dxz dyz : ℤ → ℤ → ℤ → ℝ) (my mz k j i : ℤ) : ℝ :=
  let J1 := if j = my then j - 1 else j
  let J2 := if j - 1 = -1 then j - 1 + 1 else j - 1
  let K1 := if k = mz then k - 1 else k
  let K2 := if k - 1 = -1 then k - 1 + 1 else k - 1
  dyz k j i * dyz k j i +
  0.125 * (dxx K1 J1 i * dxx K1 J1 i + dxx K1 J2 i * dxx K1 J2 i +
           dxx K2 J1 i * dxx K2 J1 i + dxx K2 J2 i * dxx K2 J2 i) +
  0.125 * (dyy K1 J1 i * dyy K1 J1 i + dyy K1 J2 i * dyy K1 J2 i +
           dyy K2 J1 i * dyy K2 J1 i + dyy K2 J2 i * dyy K2 J2 i) +
  0.125 * (dzz K1 J1 i * dzz K1 J1 i + dzz K1 J2 i * dzz K1 J2 i +
           dzz K2 J1 i * dzz K2 J1 i + dzz K2 J2 i * dzz K2 J2 i) +
  0.25 * (dxy K1 j i * dxy K1 j i + dxy K1 j (i + 1) * dxy K1 j (i + 1) +
          dxy K2 j i * dxy K2 j i + dxy K2 j (i + 1) * dxy K2 j (i + 1)) +
  0.25 * (dxz k J1 i * dxz k J1 i + dxz k J1 (i + 1) * dxz k J1 (i + 1) +
          dxz k J2 i * dxz k J2 i + dxz k J2 (i + 1) * dxz k J2 (i + 1))

/-! ## Helper lemmas: sums of squares -/

/-- Sum of three self products is non-negative. -/
theorem sq3_nonneg (a b c : ℝ) : 0 ≤ a * a + b * b + c * c := by
  have ha := mul_self_nonneg a
  have hb := mul_self_nonneg b
  have hc := mul_self_nonneg c
  linarith

/-- Sum of four self products is non-negative. -/
theorem sq4_nonneg (a b c d : ℝ) : 0 ≤ a * a + b * b + c * c + d * d := by
  have ha := mul_self_nonneg a
  have hb := mul_self_nonneg b
  have hc := mul_self_nonneg c
  have hd := mul_self_nonneg d
  linarith

/-! ## Theorems for claims C1, C2, C7 -/

/-- C1: JacResGetResidual writes at every cell center the continuity
residual -IKdt*(p - pn) - theta + alpha*(T - Tn)/dt, with theta the
volumetric strain rate computed by JacResGetEffStrainRate; and with zero
velocity everywhere, spatially uniform pressure p0 and temperature equal
to its history, that residual is -IKdt*(p0 - pn) at every center. -/
theorem continuity_residual_formula (f : JacResFields) (vol : VolConstOut) (dt : ℝ) :
    (∀ k j i : ℤ, JacResContinuityRes f vol dt k j i =
      -(vol.IKdt k j i) * (f.p k j i - vol.pn k j i) - thetaCell f k j i +
        vol.alpha k j i * (f.T k j i - vol.Tn k j i) / dt) ∧
    (∀ p0 : ℝ,
      (∀ a b c : ℤ, f.vx a b c = 0) →
      (∀ a b c : ℤ, f.vy a b c = 0) →
      (∀ a b c : ℤ, f.vz a b c = 0) →
      (∀ a b c : ℤ, f.p a b c = p0) →
      (∀ a b c : ℤ, f.T a b c = vol.Tn a b c) →
      ∀ k j i : ℤ, JacResContinuityRes f vol dt k j i =
        -(vol.IKdt k j i) * (p0 - vol.pn k j i)) := by
  constructor
  · intro k j i
    rfl
  · intro p0 hvx hvy hvz hp hT k j i
    unfold JacResContinuityRes thetaCell
    rw [hvx, hvx, hvy, hvy, hvz, hvz, hp, hT]
    simp

/-- C1 witness: the continuity residual at a concrete zero-velocity,
uniform-pressure state. -/
theorem continuity_residual_formula_w :
    JacResContinuityRes
      { vx := fun _ _ _ => 0, vy := fun _ _ _ => 0, vz := fun _ _ _ => 0,
        p := fun _ _ _ => 3, T := fun _ _ _ => 5,
        szCellX := fun _ => 1, szCellY := fun _ => 1, szCellZ := fun _ => 1,
        hxx := fun _ _ _ => 0, hyy := fun _ _ _ => 0, hzz := fun _ _ _ => 0,
        I2GdtCell := fun _ _ _ => 0 }
      { rho := fun _ _ _ => 1, IKdt := fun _ _ _ => 2, alpha := fun _ _ _ => 7,
        pn := fun _ _ _ => 1, Tn := fun _ _ _ => 5 }
      (1 : ℝ) 0 0 0 = -(2 : ℝ) * ((3 : ℝ) - 1) := by
  have h := (continuity_residual_formula
    { vx := fun _ _ _ => 0, vy := fun _ _ _ => 0, vz := fun _ _ _ => 0,
      p := fun _ _ _ => 3, T := fun _ _ _ => 5,
      szCellX := fun _ => 1, szCellY := fun _ => 1, szCellZ := fun _ => 1,
      hxx := fun _ _ _ => 0, hyy := fun _ _ _ => 0, hzz := fun _ _ _ => 0,
      I2GdtCell := fun _ _ _ => 0 }
    { rho := fun _ _ _ => 1, IKdt := fun _ _ _ => 2, alpha := fun _ _ _ => 7,
      pn := fun _ _ _ => 1, Tn := fun _ _ _ => 5 }
    (1 : ℝ)).2 3
    (fun _ _ _ => rfl) (fun _ _ _ => rfl) (fun _ _ _ => rfl)
    (fun _ _ _ => rfl) (fun _ _ _ => rfl) 0 0 0
  simpa using h

/-- C2: for arbitrary real-valued strain-rate arrays, each second invariant
formed by JacResGetResidual (at cell centers and at all three edge types,
with boundary index clamping) is a sum of squares with non-negative
weights, hence non-negative, so sqrt is never applied to a negative
argument. -/
theorem j2Inv_nonneg (dxx dyy dzz dxy dxz dyz : ℤ → ℤ → ℤ → ℝ)
    (mx my mz k j i : ℤ) :
    0 ≤ j2InvCell dxx dyy dzz dxy dxz dyz k j i ∧
    0 ≤ j2InvEdgeXY dxx dyy dzz dxy dxz dyz mx my k j i ∧
    0 ≤ j2InvEdgeXZ dxx dyy dzz dxy dxz dyz mx mz k j i ∧
    0 ≤ j2InvEdgeYZ dxx dyy dzz dxy dxz dyz my mz k j i := by
  refine ⟨?_, ?_, ?_, ?_⟩
  · simp only [j2InvCell]
    have h0 := sq3_nonneg (dxx k j i) (dyy k j i) (dzz k j i)
    have h1 := sq4_nonneg (dxy k j i) (dxy k (j + 1) i) (dxy k j (i + 1)) (dxy k (j + 1) (i + 1))
    have h2 := sq4_nonneg (dxz k j i) (dxz (k + 1) j i) (dxz k j (i + 1)) (dxz (k + 1) j (i + 1))
    have h3 := sq4_nonneg (dyz k j i) (dyz (k + 1) j i) (dyz k (j + 1) i) (dyz (k + 1) (j + 1) i)
    linarith
  · simp only [j2InvEdgeXY]
    have h0 := mul_self_nonneg (dxy k j i)
    have h1 := sq4_nonneg (dxx k (if j = my then j - 1 else j) (if i = mx then i - 1 else i))
      (dxx k (if j = my then j - 1 else j) (if i - 1 = -1 then i - 1 + 1 else i - 1))
      (dxx k (if j - 1 = -1 then j - 1 + 1 else j - 1) (if i = mx then i - 1 else i))
      (dxx k (if j - 1 = -1 then j - 1 + 1 else j - 1) (if i - 1 = -1 then i - 1 + 1 else i - 1))
    have h2 := sq4_nonneg (dyy k (if j = my then j - 1 else j) (if i = mx then i - 1 else i))
      (dyy k (if j = my then j - 1 else j) (if i - 1 = -1 then i - 1 + 1 else i - 1))
      (dyy k (if j - 1 = -1 then j - 1 + 1 else j - 1) (if i = mx then i - 1 else i))
      (dyy k (if j - 1 = -1 then j - 1 + 1 else j - 1) (if i - 1 = -1 then i - 1 + 1 else i - 1))
    have h3 := sq4_nonneg (dzz k (if j = my then j - 1 else j) (if i = mx then i - 1 else i))
      (dzz k (if j = my then j - 1 else j) (if i - 1 = -1 then i - 1 + 1 else i - 1))
      (dzz k (if j - 1 = -1 then j - 1 + 1 else j - 1) (if i = mx then i - 1 else i))
      (dzz k (if j - 1 = -1 then j - 1 + 1 else j - 1) (if i - 1 = -1 then i - 1 + 1 else i - 1))
    have h4 := sq4_nonneg (dxz k (if j = my then j - 1 else j) i)
      (dxz (k + 1) (if j = my then j - 1 else j) i)
      (dxz k (if j - 1 = -1 then j - 1 + 1 else j - 1) i)
      (dxz (k + 1) (if j - 1 = -1 then j - 1 + 1 else j - 1) i)
    have h5 := sq4_nonneg (dyz k j (if i = mx then i - 1 else i))
      (dyz (k + 1) j (if i = mx then i - 1 else i))
      (dyz k j (if i - 1 = -1 then i - 1 + 1 else i - 1))
      (dyz (k + 1) j (if i - 1 = -1 then i - 1 + 1 else i - 1))
    linarith
  · simp only [j2InvEdgeXZ]
    have h0 := mul_self_nonneg (dxz k j i)
    have h1 := sq4_nonneg (dxx (if k = mz then k - 1 else k) j (if i = mx then i - 1 else i))
      (dxx (if k = mz then k - 1 else k) j (if i - 1 = -1 then i - 1 + 1 else i - 1))
      (dxx (if k - 1 = -1 then k - 1 + 1 else k - 1) j (if i = mx then i - 1 else i))
      (dxx (if k - 1 = -1 then k - 1 + 1 else k - 1) j (if i - 1 = -1 then i - 1 + 1 else i - 1))
    have h2 := sq4_nonneg (dyy (if k = mz then k - 1 else k) j (if i = mx then i - 1 else i))
      (dyy (if k = mz then k - 1 else k) j (if i - 1 = -1 then i - 1 + 1 else i - 1))
      (dyy (if k - 1 = -1 then k - 1 + 1 else k - 1) j (if i = mx then i - 1 else i))
      (dyy (if k - 1 = -1 then k - 1 + 1 else k - 1) j (if i - 1 = -1 then i - 1 + 1 else i - 1))
    have h3 := sq4_nonneg (dzz (if k = mz then k - 1 else k) j (if i = mx then i - 1 else i))
      (dzz (if k = mz then k - 1 else k) j (if i - 1 = -1 then i - 1 + 1 else i - 1))
      (dzz (if k - 1 = -1 then k - 1 + 1 else k - 1) j (if i = mx then i - 1 else i))
      (dzz (if k - 1 = -1 then k - 1 + 1 else k - 1) j (if i - 1 = -1 then i - 1 + 1 else i - 1))
    have h4 := sq4_nonneg (dxy (if k = mz then k - 1 else k) j i)
      (dxy (if k = mz then k - 1 else k) (j + 1) i)
      (dxy (if k - 1 = -1 then k - 1 + 1 else k - 1) j i)
      (dxy (if k - 1 = -1 then k - 1 + 1 else k - 1) (j + 1) i)
    have h5 := sq4_nonneg (dyz k j (if i = mx then i - 1 else i))
      (dyz k (j + 1) (if i = mx then i - 1 else i))
      (dyz k j (if i - 1 = -1 then i - 1 + 1 else i - 1))
      (dyz k (j + 1) (if i - 1 = -1 then i - 1 + 1 else i - 1))
    linarith
  · simp only [j2InvEdgeYZ]
    have h0 := mul_self_nonneg (dyz k j i)
    have h1 := sq4_nonneg (dxx (if k = mz then k - 1 else k) (if j = my then j - 1 else j) i)
      (dxx (if k = mz then k - 1 else k) (if j - 1 = -1 then j - 1 + 1 else j - 1) i)
      (dxx (if k - 1 = -1 then k - 1 + 1 else k - 1) (if j = my then j - 1 else j) i)
      (dxx (if k - 1 = -1 then k - 1 + 1 else k - 1) (if j - 1 = -1 then j - 1 + 1 else j - 1) i)
    have h2 := sq4_nonneg (dyy (if k = mz then k - 1 else k) (if j = my then j - 1 else j) i)
      (dyy (if k = mz then k - 1 else k) (if j - 1 = -1 then j - 1 + 1 else j - 1) i)
      (dyy (if k - 1 = -1 then k - 1 + 1 else k - 1) (if j = my then j - 1 else j) i)
      (dyy (if k - 1 = -1 then k - 1 + 1 else k - 1) (if j - 1 = -1 then j - 1 + 1 else j - 1) i)
    have h3 := sq4_nonneg (dzz (if k = mz then k - 1 else k) (if j = my then j - 1 else j) i)
      (dzz (if k = mz then k - 1 else k) (if j - 1 = -1 then j - 1 + 1 else j - 1) i)
      (dzz (if k - 1 = -1 then k - 1 + 1 else k - 1) (if j = my then j - 1 else j) i)
      (dzz (if k - 1 = -1 then k - 1 + 1 else k - 1) (if j - 1 = -1 then j - 1 + 1 else j - 1) i)
    have h4 := sq4_nonneg (dxy (if k = mz then k - 1 else k) j i)
      (dxy (if k = mz then k - 1 else k) j (i + 1))
      (dxy (if k - 1 = -1 then k - 1 + 1 else k - 1) j i)
      (dxy (if k - 1 = -1 then k - 1 + 1 else k - 1) j (i + 1))
    have h5 := sq4_nonneg (dxz k (if j = my then j - 1 else j) i)
      (dxz k (if j = my then j - 1 else j) (i + 1))
      (dxz k (if j - 1 = -1 then j - 1 + 1 else j - 1) i)
      (dxz k (if j - 1 = -1 then j - 1 + 1 else j - 1) (i + 1))
    linarith

/-- C7: at every cell center, the non-elastically-corrected deviatoric
strain-rate components stored by JacResGetEffStrainRate sum to zero
exactly, for every input velocity field. -/
theorem deviatoric_trace_free (f : JacResFields) (k j i : ℤ) :
    dxxCell f k j i + dyyCell f k j i + dzzCell f k j i = 0 := by
  unfold dxxCell dyyCell dzzCell thetaCell
  ring

/-! ## Single-point constraints: JacResCopySol and JacResCopyRes (C3) -/

/-- Sequential overwrite loop applying single-point constraints, as in
JacResCopySol: for each (dof, value) pair in list order, sol[dof] := value. -/
def applySPC (sol : ℕ → ℝ) : List (ℕ × ℝ) → (ℕ → ℝ)
  | [] => sol
  | pr :: rest => applySPC (Function.update sol pr.1 pr.2) rest

/-- Sequential zeroing loop of JacResCopyRes: for each dof in the
constraint list, res[dof] := 0.0. -/
def applyZeroSPC (res : ℕ → ℝ) : List ℕ → (ℕ → ℝ)
  | [] => res
  | n :: rest => applyZeroSPC (Function.update res n 0) rest

/-- JacResCopySol: overwrite the coupled solution vector at the velocity
and pressure single-point-constraint positions (velocity list first, then
pressure list), then split it component-wise into the gvx, gvy, gvz and gp
vectors in the order X faces, Y faces, Z faces, cell centers. -/
def JacResCopySol (nXFace nYFace nZFace : ℕ) (x : ℕ → ℝ)
    (vSPC pSPC : List (ℕ × ℝ)) : (ℕ → ℝ) × (ℕ → ℝ) × (ℕ → ℝ) × (ℕ → ℝ) :=
  let sol := applySPC (applySPC x vSPC) pSPC
  (fun t => sol t,
   fun t => sol (nXFace + t),
   fun t => sol (nXFace + nYFace + t),
   fun t => sol (nXFace + nYFace + nZFace + t))

/-- JacResCopyRes: flatten the momentum and continuity residual arrays into
one coupled vector in the order X faces, Y faces, Z faces, cell centers,
then zero out the entries at the velocity and pressure constrained
positions. -/
def JacResCopyRes (nXFace nYFace nZFace : ℕ) (fx fy fz c : ℕ → ℝ)
    (vList pList : List ℕ) : ℕ → ℝ :=
  let res := fun t =>
    if t < nXFace then fx t
    else if t < nXFace + nYFace then fy (t - nXFace)
    else if t < nXFace + nYFace + nZFace then fz (t - (nXFace + nYFace))
    else c (t - (nXFace + nYFace + nZFace))
  applyZeroSPC (applyZeroSPC res vList) pList

/-- Positions not in the list are untouched by applySPC. -/
theorem applySPC_not_mem (l : List (ℕ × ℝ)) (sol : ℕ → ℝ) (n : ℕ)
    (h : n ∉ l.map Prod.fst) : applySPC sol l n = sol n := by
  induction l generalizing sol with
  | nil => rfl
  | cons pr rest ih =>
    simp only [List.map_cons, List.mem_cons] at h
    push_neg at h
    rw [applySPC, ih _ h.2, Function.update_apply, if_neg h.1]

/-- Constrained positions carry the prescribed value after applySPC when
the constrained positions are pairwise distinct. -/
theorem applySPC_mem (l : List (ℕ × ℝ)) (sol : ℕ → ℝ)
    (hnd : (l.map Prod.fst).Nodup) (pr : ℕ × ℝ) (h : pr ∈ l) :
    applySPC sol l pr.1 = pr.2 := by
  induction l generalizing sol with
  | nil => cases h
  | cons hd rest ih =>
    simp only [List.map_cons, List.nodup_cons] at hnd
    rcases List.mem_cons.mp h with heq | hmem
    · subst heq
      rw [applySPC, applySPC_not_mem _ _ _ hnd.1, Function.update_same]
    · exact ih _ hnd.2 hmem

/-- Positions not in the list are untouched by applyZeroSPC. -/
theorem applyZeroSPC_not_mem (l : List ℕ) (res : ℕ → ℝ) (n : ℕ)
    (h : n ∉ l) : applyZeroSPC res l n = res n := by
  induction l generalizing res with
  | nil => rfl
  | cons hd rest ih =>
    simp only [List.mem_cons] at h
    push_neg at h
    rw [applyZeroSPC, ih _ h.2, Function.update_apply, if_neg h.1]

/-- Every listed position is zero after applyZeroSPC. -/
theorem applyZeroSPC_mem (l : List ℕ) (res : ℕ → ℝ) (n : ℕ) (h : n ∈ l) :
    applyZeroSPC res l n = 0 := by
  induction l generalizing res with
  | nil => cases h
  | cons hd rest ih =>
    by_cases hr : n ∈ rest
    · rw [applyZeroSPC]
      exact ih _ hr
    · rcases List.mem_cons.mp h with heq | hmem
      · subst heq
        rw [applyZeroSPC, applyZeroSPC_not_mem _ _ _ hr, Function.update_same]
      · exact absurd hmem hr

/-- Applying two constraint lists in sequence is applying their
concatenation. -/
theorem applySPC_append (a b : List (ℕ × ℝ)) (sol : ℕ → ℝ) :
    applySPC (applySPC sol a) b = applySPC sol (a ++ b) := by
  induction a generalizing sol with
  | nil => rfl
  | cons hd rest ih => rw [applySPC, ih, List.cons_append, applySPC]

/-- Zeroing two constraint lists in sequence is zeroing their
concatenation. -/
theorem applyZeroSPC_append (a b : List ℕ) (res : ℕ → ℝ) :
    applyZeroSPC (applyZeroSPC res a) b = applyZeroSPC res (a ++ b) := by
  induction a generalizing res with
  | nil => rfl
  | cons hd rest ih => rw [applyZeroSPC, ih, List.cons_append, applyZeroSPC]

/-- C3: for every single-point-constraint list with pairwise distinct
constrained positions and every input vector, the split velocity/pressure
vectors produced by JacResCopySol reproduce the prescribed values exactly
at every constrained position, and JacResCopyRes sets the output residual
entry at every constrained position to exactly 0. -/
theorem copySol_copyRes_spc (nX nY nZ : ℕ) (x : ℕ → ℝ)
    (vSPC pSPC : List (ℕ × ℝ)) (fx fy fz c : ℕ → ℝ) (vL pL : List ℕ)
    (hnd : ((vSPC ++ pSPC).map Prod.fst).Nodup) :
    (∀ pr ∈ vSPC ++ pSPC,
      (pr.1 < nX → (JacResCopySol nX nY nZ x vSPC pSPC).1 pr.1 = pr.2) ∧
      (nX ≤ pr.1 → pr.1 < nX + nY →
        (JacResCopySol nX nY nZ x vSPC pSPC).2.1 (pr.1 - nX) = pr.2) ∧
      (nX + nY ≤ pr.1 → pr.1 < nX + nY + nZ →
        (JacResCopySol nX nY nZ x vSPC pSPC).2.2.1 (pr.1 - (nX + nY)) = pr.2) ∧
      (nX + nY + nZ ≤ pr.1 →
        (JacResCopySol nX nY nZ x vSPC pSPC).2.2.2 (pr.1 - (nX + nY + nZ)) = pr.2)) ∧
    (∀ n ∈ vL ++ pL, JacResCopyRes nX nY nZ fx fy fz c vL pL n = 0) := by
  constructor
  · intro pr hpr
    have hval : applySPC (applySPC x vSPC) pSPC pr.1 = pr.2 := by
      rw [applySPC_append]
      exact applySPC_mem _ _ hnd pr hpr
    refine ⟨fun h1 => ?_, fun h1 h2 => ?_, fun h1 h2 => ?_, fun h1 => ?_⟩
    · simpa [JacResCopySol] using hval
    · have : nX + (pr.1 - nX) = pr.1 := by omega
      simpa [JacResCopySol, this] using hval
    · have : nX + nY + (pr.1 - (nX + nY)) = pr.1 := by omega
      simpa [JacResCopySol, this] using hval
    · have : nX + nY + nZ + (pr.1 - (nX + nY + nZ)) = pr.1 := by omega
      simpa [JacResCopySol, this] using hval
  · intro n hn
    rw [JacResCopyRes, applyZeroSPC_append]
    exact applyZeroSPC_mem _ _ _ hn

/-- C3 witness: concrete constraint lists on a 2+2+2+2 grid layout. -/
theorem copySol_copyRes_spc_w :
    ((([((1 : ℕ), (5 : ℝ))] ++ [(7, 9)]).map Prod.fst).Nodup) ∧
    (JacResCopySol 2 2 2 (fun _ => 0) [(1, 5)] [(7, 9)]).1 1 = 5 ∧
    JacResCopyRes 2 2 2 (fun _ => 1) (fun _ => 1) (fun _ => 1) (fun _ => 1)
      [1] [7] 7 = 0 := by
  have hnd : ((([((1 : ℕ), (5 : ℝ))] ++ [(7, 9)]).map Prod.fst).Nodup) := by
    simp
  refine ⟨hnd, ?_, ?_⟩
  · exact ((copySol_copyRes_spc 2 2 2 (fun _ => 0) [(1, 5)] [(7, 9)]
      (fun _ => 1) (fun _ => 1) (fun _ => 1) (fun _ => 1) [1] [7] hnd).1
      (1, 5) (by simp)).1 (by norm_num)
  · exact (copySol_copyRes_spc 2 2 2 (fun _ => 0) [(1, 5)] [(7, 9)]
      (fun _ => 1) (fun _ => 1) (fun _ => 1) (fun _ => 1) [1] [7] hnd).2
      7 (by simp)

/-! ## Axis decomposition object (Discret1D) -/

/-- Parallel axis decomposition data used by Discret1DStretch,
Discret1DCheckMG and getMaxInvStep1DLocal.  Node and cell-center
coordinate buffers are modelled as total functions over the local index
(ghost slots included); h_uni is negative when the axis is non-uniform. -/
structure Discret1D where
  nproc : ℕ
  ncels : ℕ
  tcels : ℕ
  ncoor : ℤ → ℝ
  ccoor : ℤ → ℝ
  hUni : ℝ
  hMin : ℝ
  hMax : ℝ

/-! ## Multigrid compatibility check (C9) -/

/-- Consecutive halvings of a cell count until an odd size remains, as in
the while loop of Discret1DCheckMG.  (The C loop does not terminate on a
zero cell count; the claims are settled under a positive cell count.) -/
def halvings (n : ℕ) : ℕ :=
  if h : n % 2 = 0 ∧ n ≠ 0 then halvings (n / 2) + 1 else 0
decreasing_by exact Nat.div_lt_self (Nat.pos_of_ne_zero h.2) (by norm_num)

/-- Discret1DCheckMG: validate that the local cell count is even, that a
uniform per-process cell count exists, and that the local count matches
it; on success return the number of coarsening steps. -/
def Discret1DCheckMG (ds : Discret1D) (dir : String) : Except String ℕ :=
  if ds.ncels % 2 ≠ 0 then
    Except.error ("Local grid size is an odd number in " ++ dir ++ "-direction")
  else if ds.tcels % ds.nproc ≠ 0 then
    Except.error ("Uniform local grid size does not exist in " ++ dir ++ "-direction")
  else if ds.tcels / ds.nproc ≠ ds.ncels then
    Except.error ("Local grid size is not constant on all processors in " ++ dir ++ "-direction")
  else
    Except.ok (halvings ds.ncels)

/-- On positive input, 2 to the number of halvings divides the input and
is the largest such power of two. -/
theorem halvings_spec : ∀ n : ℕ, n ≠ 0 →
    2 ^ halvings n ∣ n ∧ ¬ 2 ^ (halvings n + 1) ∣ n := by
  intro n
  induction n using Nat.strong_induction_on with
  | _ n ih =>
    intro hn
    rw [halvings]
    by_cases h : n % 2 = 0 ∧ n ≠ 0
    · rw [dif_pos h]
      have h2 : n / 2 ≠ 0 := by omega
      have hlt : n / 2 < n := Nat.div_lt_self (Nat.pos_of_ne_zero hn) (by norm_num)
      obtain ⟨hd, hnd⟩ := ih (n / 2) hlt h2
      have hn2 : 2 * (n / 2) = n := by omega
      constructor
      · rw [pow_succ]
        calc (2 : ℕ) ^ halvings (n / 2) * 2 ∣ (n / 2) * 2 :=
              mul_dvd_mul hd dvd_rfl
          _ = n := by omega
      · intro hcon
        apply hnd
        have hc2 : 2 * 2 ^ (halvings (n / 2) + 1) ∣ 2 * (n / 2) := by
          rw [hn2]
          calc 2 * 2 ^ (halvings (n / 2) + 1)
              = 2 ^ (halvings (n / 2) + 1 + 1) := by ring
            _ ∣ n := hcon
        exact (mul_dvd_mul_iff_left (two_ne_zero)).mp hc2
    · rw [dif_neg h]
      have hodd : n % 2 = 1 := by omega
      constructor
      · simpa using one_dvd n
      · intro hcon
        have : 2 ∣ n := by simpa using hcon
        omega

/-- C9: Discret1DCheckMG fails with an error naming the axis exactly when
the local cell count is odd, or the total cell count is not divisible by
the process count, or the local count differs from the uniform quotient;
when all checks pass it returns the number of consecutive halvings of the
local cell count until an odd size remains, which is the largest k such
that 2 to the k divides that count. -/
theorem checkMG_spec (ds : Discret1D) (dir : String)
    (h1 : 0 < ds.ncels) (h2 : 0 < ds.nproc) :
    ((∃ e, Discret1DCheckMG ds dir = Except.error e) ↔
      (ds.ncels % 2 ≠ 0 ∨ ds.tcels % ds.nproc ≠ 0 ∨ ds.tcels / ds.nproc ≠ ds.ncels)) ∧
    (ds.ncels % 2 ≠ 0 →
      Discret1DCheckMG ds dir =
        Except.error ("Local grid size is an odd number in " ++ dir ++ "-direction")) ∧
    (ds.ncels % 2 = 0 → ds.tcels % ds.nproc ≠ 0 →
      Discret1DCheckMG ds dir =
        Except.error ("Uniform local grid size does not exist in " ++ dir ++ "-direction")) ∧
    (ds.ncels % 2 = 0 → ds.tcels % ds.nproc = 0 → ds.tcels / ds.nproc ≠ ds.ncels →
      Discret1DCheckMG ds dir =
        Except.error ("Local grid size is not constant on all processors in " ++ dir ++ "-direction")) ∧
    (ds.ncels % 2 = 0 → ds.tcels % ds.nproc = 0 → ds.tcels / ds.nproc = ds.ncels →
      Discret1DCheckMG ds dir = Except.ok (halvings ds.ncels) ∧
      2 ^ halvings ds.ncels ∣ ds.ncels ∧ ¬ 2 ^ (halvings ds.ncels + 1) ∣ ds.ncels) := by
  have hsp := halvings_spec ds.ncels (by omega)
  refine ⟨?_, ?_, ?_, ?_, ?_⟩
  · constructor
    · intro ⟨e, he⟩
      by_contra hcon
      push_neg at hcon
      obtain ⟨c1, c2, c3⟩ := hcon
      rw [Discret1DCheckMG, if_neg (by simpa using c1), if_neg (by simpa using c2),
        if_neg (by simpa using c3)] at he
      cases he
    · intro hc
      rw [Discret1DCheckMG]
      by_cases c1 : ds.ncels % 2 ≠ 0
      · exact ⟨_, by rw [if_pos c1]⟩
      · by_cases c2 : ds.tcels % ds.nproc ≠ 0
        · exact ⟨_, by rw [if_neg c1, if_pos c2]⟩
        · have c3 : ds.tcels / ds.nproc ≠ ds.ncels := by tauto
          exact ⟨_, by rw [if_neg c1, if_neg c2, if_pos c3]⟩
  · intro c1
    rw [Discret1DCheckMG, if_pos c1]
  · intro c1 c2
    rw [Discret1DCheckMG, if_neg (by simpa using c1), if_pos c2]
  · intro c1 c2 c3
    rw [Discret1DCheckMG, if_neg (by simpa using c1), if_neg (by simpa using c2), if_pos c3]
  · intro c1 c2 c3
    rw [Discret1DCheckMG, if_neg (by simpa using c1), if_neg (by simpa using c2),
      if_neg (by simpa using c3)]
    exact ⟨rfl, hsp.1, hsp.2⟩

/-- C9 witness: a 4-cell local, 8-cell total, 2-process axis passes the
checks and yields 2 coarsening steps. -/
theorem checkMG_spec_w :
    0 < (4 : ℕ) ∧ 0 < (2 : ℕ) ∧
    Discret1DCheckMG
      { nproc := 2, ncels := 4, tcels := 8, ncoor := fun _ => 0, ccoor := fun _ => 0,
        hUni := 0, hMin := 0, hMax := 0 } "x" = Except.ok 2 := by
  have e1 : halvings 1 = 0 := by
    rw [halvings]
    norm_num
  have e2 : halvings 2 = 1 := by
    rw [halvings]
    norm_num [e1]
  have e4 : halvings 4 = 2 := by
    rw [halvings]
    norm_num [e2]
  have h := ((checkMG_spec
    { nproc := 2, ncels := 4, tcels := 8, ncoor := fun _ => 0, ccoor := fun _ => 0,
      hUni := 0, hMin := 0, hMax := 0 } "x" (by norm_num) (by norm_num)).2.2.2.2
    (by norm_num) (by norm_num) (by norm_num)).1
  refine ⟨by norm_num, by norm_num, ?_⟩
  rw [h]
  norm_num [e4]

/-! ## FDSTAGCreate processor-grid hints (C10) -/

/-- PETSc sentinel asking the library to choose a value. -/
def PETSC_DECIDE : ℤ := -1

/-- Behaviour of the external DMDACreate3d / DMDAGetInfo /
DMDAGetOwnershipRanges / DMDAGetProcessorRank calls: given the global
sizes and processor-grid arguments passed to DMDACreate3d, the library
determines the actual processor grid, the per-process ownership ranges
and this process coordinates. -/
structure DMDAInfo where
  Px : ℕ
  Py : ℕ
  Pz : ℕ
  lx : ℕ → ℕ
  ly : ℕ → ℕ
  lz : ℕ → ℕ
  rx : ℕ
  ry : ℕ
  rz : ℕ

/-- Grid data produced by FDSTAGCreate that downstream code observes:
actual processor grid, adjusted ownership ranges, local node/cell counts
per axis, the eight local point-set sizes, and the column colors. -/
structure FDSTAGGrid where
  Px : ℕ
  Py : ℕ
  Pz : ℕ
  lx : ℕ → ℕ
  ly : ℕ → ℕ
  lz : ℕ → ℕ
  nnx : ℕ
  nny : ℕ
  nnz : ℕ
  ncx : ℕ
  ncy : ℕ
  ncz : ℕ
  nCells : ℕ
  nCorns : ℕ
  nXYEdg : ℕ
  nXZEdg : ℕ
  nYZEdg : ℕ
  nXFace : ℕ
  nYFace : ℕ
  nZFace : ℕ
  colorX : ℕ
  colorY : ℕ
  colorZ : ℕ

/-- FDSTAGCreate: the processor-grid arguments Px, Py, Pz are
unconditionally overwritten with PETSC_DECIDE before any use; the center
distributed array is created on the (Nx-1, Ny-1, Nz-1) cell grid, the
actual processor grid is queried back, the ownership range of the last
process on each axis is incremented by one to get node counts, and the
local counts and point-set sizes are derived. -/
def FDSTAGCreate (env : ℤ → ℤ → ℤ → ℤ → ℤ → ℤ → DMDAInfo)
    (Nx Ny Nz Px Py Pz : ℤ) : FDSTAGGrid :=
  let Px := PETSC_DECIDE
  let Py := PETSC_DECIDE
  let Pz := PETSC_DECIDE
  let info := env (Nx - 1) (Ny - 1) (Nz - 1) Px Py Pz
  let lx := fun p => if p = info.Px - 1 then info.lx p + 1 else info.lx p
  let ly := fun p => if p = info.Py - 1 then info.ly p + 1 else info.ly p
  let lz := fun p => if p = info.Pz - 1 then info.lz p + 1 else info.lz p
  let nnx := lx info.rx
  let nny := ly info.ry
  let nnz := lz info.rz
  let ncx := if info.rx + 1 < info.Px then nnx else nnx - 1
  let ncy := if info.ry + 1 < info.Py then nny else nny - 1
  let ncz := if info.rz + 1 < info.Pz then nnz else nnz - 1
  { Px := info.Px, Py := info.Py, Pz := info.Pz
    lx := lx, ly := ly, lz := lz
    nnx := nnx, nny := nny, nnz := nnz
    ncx := ncx, ncy := ncy, ncz := ncz
    nCells := ncx * ncy * ncz
    nCorns := nnx * nny * nnz
    nXYEdg := nnx * nny * ncz
    nXZEdg := nnx * ncy * nnz
    nYZEdg := ncx * nny * nnz
    nXFace := nnx * ncy * ncz
    nYFace := ncx * nny * ncz
    nZFace := ncx * ncy * nnz
    colorX := info.ry + info.rz * info.Py
    colorY := info.rx + info.rz * info.Px
    colorZ := info.rx + info.ry * info.Px }

/-- C10: the processor-grid hint arguments of FDSTAGCreate have no effect
on the result: they are unconditionally overwritten with PETSC_DECIDE
before any use, so any two calls differing only in the hints produce
identical grid objects and decompositions, for every behaviour of the
distributed-array library. -/
theorem fdstagCreate_hint_independent (env : ℤ → ℤ → ℤ → ℤ → ℤ → ℤ → DMDAInfo)
    (Nx Ny Nz Pa Pb Pc Qa Qb Qc : ℤ) :
    FDSTAGCreate env Nx Ny Nz Pa Pb Pc = FDSTAGCreate env Nx Ny Nz Qa Qb Qc := rfl

/-! ## Courant time step (C4) -/

/-- One step of the inverse-time-step maximum loop of getMaxInvStep1DLocal
on a variable-spacing axis: choose the upwind cell (forward cell for
non-negative velocity, backward cell otherwise), form idt = v/h, and keep
the larger of idt and the running maximum. -/
def invStepMaxStep (ncoor : ℤ → ℝ) (idtmax : ℝ) (pv : ℤ × ℝ) : ℝ :=
  let idx := if 0 ≤ pv.2 then pv.1 else pv.1 - 1
  let h := ncoor (idx + 1) - ncoor idx
  let idt := pv.2 / h
  if idtmax < idt then idt else idtmax

/-- Variable-spacing branch of getMaxInvStep1DLocal: fold the per-point
update over the owned velocity points (given as pairs of the node index
along the direction and the velocity value). -/
def getMaxInvStepVar (ncoor : ℤ → ℝ) (pts : List (ℤ × ℝ)) (idt0 : ℝ) : ℝ :=
  pts.foldl (invStepMaxStep ncoor) idt0

/-- Uniform-spacing branch of getMaxInvStep1DLocal: the maximum absolute
velocity over the local vector divided by the uniform step. -/
def getMaxInvStepUni (hUni : ℝ) (vals : List ℝ) (idt0 : ℝ) : ℝ :=
  let vmax := vals.foldl (fun vmax v => if vmax < |v| then |v| else vmax) 0
  let idt := vmax / hUni
  if idt0 < idt then idt else idt0

/-- getMaxInvStep1DLocal: dispatch on whether the axis is uniform. -/
def getMaxInvStep1DLocal (ds : Discret1D) (pts : List (ℤ × ℝ)) (vals : List ℝ)
    (idt0 : ℝ) : ℝ :=
  if ds.hUni < 0 then getMaxInvStepVar ds.ncoor pts idt0
  else getMaxInvStepUni ds.hUni vals idt0

/-- JacResGetCourantStep, after the global MAX reduction: divide the
maximum inverse step by the Courant number, grow the previous step by
factor 1.1, then cap by the Courant step and by the user ceiling. -/
def JacResGetCourantStep (dtPrev Cmax dtmax idtmax : ℝ) : ℝ :=
  let g := idtmax / Cmax
  let dt1 := dtPrev * 1.1
  let dt2 := if 1.0 / g < dt1 then 1.0 / g else dt1
  if dtmax < dt2 then dtmax else dt2

/-- Modelled from the spec: the per-point inverse time step as claim C4
states it, namely the absolute velocity divided by the upwind cell width,
maximized over the points. -/
def claimMaxInvStepVar (ncoor : ℤ → ℝ) (pts : List (ℤ × ℝ)) (idt0 : ℝ) : ℝ :=
  pts.foldl (fun idtmax pv =>
    let idx := if 0 ≤ pv.2 then pv.1 else pv.1 - 1
    let h := ncoor (idx + 1) - ncoor idx
    let idt := |pv.2| / h
    if idtmax < idt then idt else idtmax) idt0

/-- Concrete non-uniform axis for refuting the absolute-value reading of
the Courant contribution. -/
def dsCex : Discret1D :=
  { nproc := 1, ncels := 2, tcels := 2, ncoor := fun z => (z : ℝ),
    ccoor := fun z => (z : ℝ) + 0.5, hUni := -1, hMin := 1, hMax := 1 }

/-- On the concrete axis, the code maximum ignores the negative velocity. -/
theorem dsCex_code_val : getMaxInvStep1DLocal dsCex [(0, -8), (0, 1)] [] 0 = 1 := by
  rw [getMaxInvStep1DLocal, if_pos (by norm_num [dsCex])]
  rw [getMaxInvStepVar]
  simp only [List.foldl_cons, List.foldl_nil, invStepMaxStep, dsCex]
  norm_num

/-- On the concrete axis, the claimed absolute-value maximum is 8. -/
theorem dsCex_claim_val : claimMaxInvStepVar dsCex.ncoor [(0, -8), (0, 1)] 0 = 8 := by
  rw [claimMaxInvStepVar]
  simp only [List.foldl_cons, List.foldl_nil, dsCex]
  norm_num

/-- C4 counterexample: with a non-uniform axis carrying velocities -8 and
1 on unit cells, previous step 10, Courant number 1 and ceiling 100, the
time step computed by the code is not min(1.1 previous, Cmax/idtmax,
dtmax) when idtmax is taken to be the maximum of the absolute velocity
over the upwind width as the claim states: the code ignores the negative
velocity on a non-uniform axis (idt = v/h, not abs v/h). -/
theorem courant_step_cex :
    JacResGetCourantStep 10 1 100 (getMaxInvStep1DLocal dsCex [(0, -8), (0, 1)] [] 0) ≠
      min (min (10 * 1.1) (1 / claimMaxInvStepVar dsCex.ncoor [(0, -8), (0, 1)] 0)) 100 := by
  rw [dsCex_code_val, dsCex_claim_val]
  rw [JacResGetCourantStep]
  norm_num

/-- The running maximum never decreases in one step. -/
theorem invStepMaxStep_le (ncoor : ℤ → ℝ) (a : ℝ) (pv : ℤ × ℝ) :
    a ≤ invStepMaxStep ncoor a pv := by
  simp only [invStepMaxStep]
  split <;> split
  all_goals first
    | exact le_rfl
    | linarith [(by assumption : a < pv.2 / (ncoor (pv.1 + 1) - ncoor pv.1))]
    | linarith [(by assumption : a < pv.2 / (ncoor (pv.1 - 1 + 1) - ncoor (pv.1 - 1)))]

/-- The fold result dominates its initial value. -/
theorem getMaxInvStepVar_init_le (ncoor : ℤ → ℝ) (pts : List (ℤ × ℝ)) (idt0 : ℝ) :
    idt0 ≤ getMaxInvStepVar ncoor pts idt0 := by
  induction pts generalizing idt0 with
  | nil => exact le_rfl
  | cons pv rest ih =>
    have hstep : getMaxInvStepVar ncoor (pv :: rest) idt0 =
        getMaxInvStepVar ncoor rest (invStepMaxStep ncoor idt0 pv) := rfl
    rw [hstep]
    exact le_trans (invStepMaxStep_le ncoor idt0 pv) (ih _)

/-- The fold result dominates every per-point signed contribution v/h. -/
theorem getMaxInvStepVar_point_le (ncoor : ℤ → ℝ) (pts : List (ℤ × ℝ)) (idt0 : ℝ)
    (pv : ℤ × ℝ) (hm : pv ∈ pts) :
    pv.2 / (ncoor ((if 0 ≤ pv.2 then pv.1 else pv.1 - 1) + 1) -
      ncoor (if 0 ≤ pv.2 then pv.1 else pv.1 - 1)) ≤
      getMaxInvStepVar ncoor pts idt0 := by
  induction pts generalizing idt0 with
  | nil => cases hm
  | cons hd rest ih =>
    have hstep : getMaxInvStepVar ncoor (hd :: rest) idt0 =
        getMaxInvStepVar ncoor rest (invStepMaxStep ncoor idt0 hd) := rfl
    rw [hstep]
    rcases List.mem_cons.mp hm with heq | hmem
    · subst heq
      have h1 : pv.2 / (ncoor ((if 0 ≤ pv.2 then pv.1 else pv.1 - 1) + 1) -
          ncoor (if 0 ≤ pv.2 then pv.1 else pv.1 - 1)) ≤ invStepMaxStep ncoor idt0 pv := by
        simp only [invStepMaxStep]
        split <;> split
        all_goals first
          | exact le_rfl
          | linarith [not_lt.mp (by assumption :
              ¬ idt0 < pv.2 / (ncoor (pv.1 + 1) - ncoor pv.1))]
          | linarith [not_lt.mp (by assumption :
              ¬ idt0 < pv.2 / (ncoor (pv.1 - 1 + 1) - ncoor (pv.1 - 1)))]
      exact le_trans h1 (getMaxInvStepVar_init_le ncoor rest _)
    · exact ih _ hmem

/-- C4 amended: the contribution of a velocity point on a non-uniform axis
is the signed quotient v/h with the upwind cell width (negative velocities
contribute nothing); given any positive resulting inverse-step maximum
idtmax and positive Courant number, the new step equals
min(1.1 previous, Cmax/idtmax, dtmax), and in particular it never exceeds
1.1 times the previous step nor the ceiling dtmax. -/
theorem courant_step_amended (ds : Discret1D) (pts : List (ℤ × ℝ)) (vals : List ℝ)
    (idt0 dtPrev Cmax dtmax : ℝ)
    (hC : 0 < Cmax) (hI : 0 < getMaxInvStep1DLocal ds pts vals idt0) :
    JacResGetCourantStep dtPrev Cmax dtmax (getMaxInvStep1DLocal ds pts vals idt0) =
      min (min (dtPrev * 1.1) (Cmax / getMaxInvStep1DLocal ds pts vals idt0)) dtmax ∧
    JacResGetCourantStep dtPrev Cmax dtmax (getMaxInvStep1DLocal ds pts vals idt0) ≤
      dtPrev * 1.1 ∧
    JacResGetCourantStep dtPrev Cmax dtmax (getMaxInvStep1DLocal ds pts vals idt0) ≤
      dtmax ∧
    (ds.hUni < 0 →
      idt0 ≤ getMaxInvStep1DLocal ds pts vals idt0 ∧
      ∀ pv ∈ pts,
        pv.2 / (ds.ncoor ((if 0 ≤ pv.2 then pv.1 else pv.1 - 1) + 1) -
          ds.ncoor (if 0 ≤ pv.2 then pv.1 else pv.1 - 1)) ≤
          getMaxInvStep1DLocal ds pts vals idt0) := by
  set I := getMaxInvStep1DLocal ds pts vals idt0 with hIdef
  have hgpos : 0 < I / Cmax := div_pos hI hC
  have hinv : (1.0 : ℝ) / (I / Cmax) = Cmax / I := by
    rw [show (1.0 : ℝ) = 1 from by norm_num, one_div_div]
  have hform : JacResGetCourantStep dtPrev Cmax dtmax I =
      min (min (dtPrev * 1.1) (Cmax / I)) dtmax := by
    simp only [JacResGetCourantStep]
    rw [hinv]
    rcases lt_or_le (Cmax / I) (dtPrev * 1.1) with hlt | hle
    · rw [if_pos hlt]
      have e1 : min (dtPrev * 1.1) (Cmax / I) = Cmax / I := min_eq_right hlt.le
      rcases lt_or_le dtmax (Cmax / I) with h2 | h2
      · rw [if_pos h2, e1, min_eq_right h2.le]
      · rw [if_neg (not_lt.mpr h2), e1, min_eq_left h2]
    · rw [if_neg (not_lt.mpr hle)]
      have e1 : min (dtPrev * 1.1) (Cmax / I) = dtPrev * 1.1 := min_eq_left hle
      rcases lt_or_le dtmax (dtPrev * 1.1) with h2 | h2
      · rw [if_pos h2, e1, min_eq_right h2.le]
      · rw [if_neg (not_lt.mpr h2), e1, min_eq_left h2]
  refine ⟨hform, ?_, ?_, ?_⟩
  · rw [hform]
    calc min (min (dtPrev * 1.1) (Cmax / I)) dtmax ≤ min (dtPrev * 1.1) (Cmax / I) :=
          min_le_left _ _
      _ ≤ dtPrev * 1.1 := min_le_left _ _
  · rw [hform]
    exact min_le_right _ _
  · intro hvar
    rw [hIdef]
    rw [getMaxInvStep1DLocal, if_pos hvar]
    exact ⟨getMaxInvStepVar_init_le ds.ncoor pts idt0,
      fun pv hm => getMaxInvStepVar_point_le ds.ncoor pts idt0 pv hm⟩

/-- C4 amended witness: the concrete axis, with previous step 10, Courant
number 1 and ceiling 100. -/
theorem courant_step_amended_w :
    (0 : ℝ) < 1 ∧ 0 < getMaxInvStep1DLocal dsCex [(0, -8), (0, 1)] [] 0 ∧
    JacResGetCourantStep 10 1 100 (getMaxInvStep1DLocal dsCex [(0, -8), (0, 1)] [] 0) =
      min (min ((10 : ℝ) * 1.1)
        (1 / getMaxInvStep1DLocal dsCex [(0, -8), (0, 1)] [] 0)) 100 := by
  have hpos : (0 : ℝ) < getMaxInvStep1DLocal dsCex [(0, -8), (0, 1)] [] 0 := by
    rw [dsCex_code_val]
    norm_num
  refine ⟨by norm_num, hpos, ?_⟩
  have h := (courant_step_amended dsCex [(0, -8), (0, 1)] [] 0 10 1 100
    (by norm_num) hpos).1
  simpa using h

/-! ## Segmented axis description (MeshSeg1D) -/

/-- Input segment description (MeshSegInp): number of explicit segments,
per-segment cell counts, internal delimiter coordinates, per-segment
biases. -/
structure MeshSegInp where
  nsegs : ℕ
  ncells : ℕ → ℕ
  delims : ℕ → ℝ
  biases : ℕ → ℝ

/-- Segmented axis description (MeshSeg1D): global cell-index delimiters
istart (istart 0 = 0, istart nsegs = total cell count), coordinate
delimiters xstart, and per-segment biases, addressed as total functions. -/
structure MeshSeg1D where
  nsegs : ℕ
  istart : ℕ → ℤ
  xstart : ℕ → ℝ
  biases : ℕ → ℝ

/-- Prefix sums of the input per-segment cell counts, as accumulated by
the istart loop of MeshSeg1DCreate. -/
def sumCells (msi : MeshSegInp) : ℕ → ℤ
  | 0 => 0
  | n + 1 => sumCells msi n + msi.ncells n

/-- MeshSeg1DCreate: expand the input segments when at least one is given
(index delimiters from prefix sums, coordinate delimiters from the input),
otherwise create a single uniform segment; the boundary entries are set to
0 / tncels and beg / end exactly. -/
def MeshSeg1DCreate (beg endx : ℝ) (tncels : ℤ) (msi : MeshSegInp) : MeshSeg1D :=
  let ns := if msi.nsegs ≠ 0 then msi.nsegs else 1
  { nsegs := ns
    istart := fun s => if s = 0 then 0 else if s = ns then tncels else sumCells msi s
    xstart := fun s => if s = 0 then beg else if s = ns then endx else msi.delims (s - 1)
    biases := fun s => if msi.nsegs ≠ 0 then msi.biases s else 1.0 }

/-- MeshSeg1DGetUniStep: the uniform step implied by the axis extent and
total cell count. -/
def MeshSeg1DGetUniStep (ms : MeshSeg1D) : ℝ :=
  (ms.xstart ms.nsegs - ms.xstart 0) / ((ms.istart ms.nsegs : ℤ) : ℝ)

/-- MeshSeg1DStretch: scale every segment breakpoint by (1 - eps)
(homothety about the origin). -/
def MeshSeg1DStretch (ms : MeshSeg1D) (eps : ℝ) : MeshSeg1D :=
  { ms with xstart := fun s => ms.xstart s * (1 - eps) }

/-! ## Axis stretching (C8) -/

/-- Discret1DStretch: stretch the segment description, multiply every
stored node coordinate (ghost slots included) by (1 - eps), recompute
every cell-center coordinate as the midpoint of its adjacent nodes, and
update the mesh-step statistics: scaled analytically when the axis is
non-uniform, re-derived from the stretched segment description when
uniform. -/
def Discret1DStretch (ds : Discret1D) (ms : MeshSeg1D) (eps : ℝ) :
    Discret1D × MeshSeg1D :=
  let ms2 := MeshSeg1DStretch ms eps
  let nc := fun z => ds.ncoor z * (1 - eps)
  let cc := fun z => (nc z + nc (z + 1)) / 2
  if ds.hUni < 0 then
    ({ ds with
        ncoor := nc
        ccoor := cc
        hMin := ds.hMin * (1 - eps)
        hMax := ds.hMax * (1 - eps) }, ms2)
  else
    let h := MeshSeg1DGetUniStep ms2
    ({ ds with ncoor := nc, ccoor := cc, hUni := h, hMin := h, hMax := h }, ms2)

/-- The staggered-grid object, reduced to the per-axis discretization and
segment data accessed by FDSTAGStretch. -/
structure FDSTAG where
  dsx : Discret1D
  dsy : Discret1D
  dsz : Discret1D
  msx : MeshSeg1D
  msy : MeshSeg1D
  msz : MeshSeg1D

/-- FDSTAGStretch: derive Ezz = -(Exx + Eyy) for mass balance and stretch
each axis whose rate is nonzero with eps = rate times dt. -/
def FDSTAGStretch (fs : FDSTAG) (Exx Eyy dt : ℝ) : FDSTAG :=
  let Ezz := -(Exx + Eyy)
  let fs1 := if Exx ≠ 0 then
      let r := Discret1DStretch fs.dsx fs.msx (Exx * dt)
      { fs with dsx := r.1, msx := r.2 }
    else fs
  let fs2 := if Eyy ≠ 0 then
      let r := Discret1DStretch fs1.dsy fs1.msy (Eyy * dt)
      { fs1 with dsy := r.1, msy := r.2 }
    else fs1
  if Ezz ≠ 0 then
    let r := Discret1DStretch fs2.dsz fs2.msz (Ezz * dt)
    { fs2 with dsz := r.1, msz := r.2 }
  else fs2

/-- C8: FDSTAGStretch derives Ezz = -(Exx + Eyy); an axis with zero rate
is left completely unchanged; an axis with nonzero rate E is replaced by
Discret1DStretch of that axis with eps = E dt, and Discret1DStretch
multiplies every segment breakpoint and every stored node coordinate
(ghosts included) by (1 - eps), recomputes every cell-center coordinate as
the midpoint of its two adjacent nodes (so every cell size scales by
(1 - eps)), and updates the h statistics: on a non-uniform axis h_min and
h_max are scaled by (1 - eps) and the non-uniform marker is kept, on a
uniform axis all three are set to the uniform step of the stretched
segment description, which is (1 - eps) times the old uniform step. -/
theorem fdstag_stretch_spec (fs : FDSTAG) (Exx Eyy dt : ℝ) :
    (Exx = 0 → (FDSTAGStretch fs Exx Eyy dt).dsx = fs.dsx ∧
      (FDSTAGStretch fs Exx Eyy dt).msx = fs.msx) ∧
    (Eyy = 0 → (FDSTAGStretch fs Exx Eyy dt).dsy = fs.dsy ∧
      (FDSTAGStretch fs Exx Eyy dt).msy = fs.msy) ∧
    (-(Exx + Eyy) = 0 → (FDSTAGStretch fs Exx Eyy dt).dsz = fs.dsz ∧
      (FDSTAGStretch fs Exx Eyy dt).msz = fs.msz) ∧
    (Exx ≠ 0 → (FDSTAGStretch fs Exx Eyy dt).dsx =
        (Discret1DStretch fs.dsx fs.msx (Exx * dt)).1 ∧
      (FDSTAGStretch fs Exx Eyy dt).msx = (Discret1DStretch fs.dsx fs.msx (Exx * dt)).2) ∧
    (Eyy ≠ 0 → (FDSTAGStretch fs Exx Eyy dt).dsy =
        (Discret1DStretch fs.dsy fs.msy (Eyy * dt)).1 ∧
      (FDSTAGStretch fs Exx Eyy dt).msy = (Discret1DStretch fs.dsy fs.msy (Eyy * dt)).2) ∧
    (-(Exx + Eyy) ≠ 0 → (FDSTAGStretch fs Exx Eyy dt).dsz =
        (Discret1DStretch fs.dsz fs.msz (-(Exx + Eyy) * dt)).1 ∧
      (FDSTAGStretch fs Exx Eyy dt).msz =
        (Discret1DStretch fs.dsz fs.msz (-(Exx + Eyy) * dt)).2) ∧
    (∀ (ds : Discret1D) (ms : MeshSeg1D) (eps : ℝ),
      (∀ z : ℤ, (Discret1DStretch ds ms eps).1.ncoor z = ds.ncoor z * (1 - eps)) ∧
      (∀ st : ℕ, (Discret1DStretch ds ms eps).2.xstart st = ms.xstart st * (1 - eps)) ∧
      (∀ z : ℤ, (Discret1DStretch ds ms eps).1.ccoor z =
        ((Discret1DStretch ds ms eps).1.ncoor z +
         (Discret1DStretch ds ms eps).1.ncoor (z + 1)) / 2) ∧
      (∀ z : ℤ, (Discret1DStretch ds ms eps).1.ncoor (z + 1) -
          (Discret1DStretch ds ms eps).1.ncoor z =
        (1 - eps) * (ds.ncoor (z + 1) - ds.ncoor z)) ∧
      (ds.hUni < 0 →
        (Discret1DStretch ds ms eps).1.hMin = ds.hMin * (1 - eps) ∧
        (Discret1DStretch ds ms eps).1.hMax = ds.hMax * (1 - eps) ∧
        (Discret1DStretch ds ms eps).1.hUni = ds.hUni) ∧
      (¬ ds.hUni < 0 →
        (Discret1DStretch ds ms eps).1.hUni =
          MeshSeg1DGetUniStep (MeshSeg1DStretch ms eps) ∧
        (Discret1DStretch ds ms eps).1.hMin =
          MeshSeg1DGetUniStep (MeshSeg1DStretch ms eps) ∧
        (Discret1DStretch ds ms eps).1.hMax =
          MeshSeg1DGetUniStep (MeshSeg1DStretch ms eps) ∧
        MeshSeg1DGetUniStep (MeshSeg1DStretch ms eps) =
          MeshSeg1DGetUniStep ms * (1 - eps))) := by
  refine ⟨?_, ?_, ?_, ?_, ?_, ?_, ?_⟩
  · intro h
    simp only [FDSTAGStretch, h]
    norm_num
    split_ifs <;> simp
  · intro h
    simp only [FDSTAGStretch, h]
    norm_num
    split_ifs <;> simp
  · intro h
    simp only [FDSTAGStretch, h]
    norm_num
    split_ifs <;> simp
  · intro h
    simp only [FDSTAGStretch, if_pos h]
    split_ifs <;> simp
  · intro h
    simp only [FDSTAGStretch]
    rw [if_pos h]
    split_ifs <;> simp
  · intro h
    simp only [FDSTAGStretch]
    rw [if_pos h]
    split_ifs <;> simp
  · intro ds ms eps
    refine ⟨?_, ?_, ?_, ?_, ?_, ?_⟩
    · intro z
      simp only [Discret1DStretch]
      split_ifs <;> rfl
    · intro st
      simp only [Discret1DStretch]
      split_ifs <;> rfl
    · intro z
      simp only [Discret1DStretch]
      split_ifs <;> rfl
    · intro z
      simp only [Discret1DStretch]
      split_ifs <;> (show _ = _; ring)
    · intro h
      refine ⟨?_, ?_, ?_⟩ <;> simp [Discret1DStretch, if_pos h]
    · intro h
      refine ⟨?_, ?_, ?_, ?_⟩
      · simp [Discret1DStretch, if_neg h]
      · simp [Discret1DStretch, if_neg h]
      · simp [Discret1DStretch, if_neg h]
      · simp only [MeshSeg1DGetUniStep, MeshSeg1DStretch]
        ring

/-- Concrete one-segment unit axis used by the C8 witness. -/
def fsW : FDSTAG :=
  { dsx := { nproc := 1, ncels := 1, tcels := 1, ncoor := fun z => (z : ℝ)
             ccoor := fun z => (z : ℝ) + 0.5, hUni := -1, hMin := 1, hMax := 1 }
    dsy := { nproc := 1, ncels := 1, tcels := 1, ncoor := fun z => (z : ℝ)
             ccoor := fun z => (z : ℝ) + 0.5, hUni := -1, hMin := 1, hMax := 1 }
    dsz := { nproc := 1, ncels := 1, tcels := 1, ncoor := fun z => (z : ℝ)
             ccoor := fun z => (z : ℝ) + 0.5, hUni := -1, hMin := 1, hMax := 1 }
    msx := { nsegs := 1, istart := fun s => if s = 0 then 0 else 1
             xstart := fun s => if s = 0 then 0 else 1, biases := fun _ => 1 }
    msy := { nsegs := 1, istart := fun s => if s = 0 then 0 else 1
             xstart := fun s => if s = 0 then 0 else 1, biases := fun _ => 1 }
    msz := { nsegs := 1, istart := fun s => if s = 0 then 0 else 1
             xstart := fun s => if s = 0 then 0 else 1, biases := fun _ => 1 } }

/-- C8 witness: with Exx = 2, Eyy = 0, dt = 1 on a concrete grid, the
stretched x axis has node coordinates scaled by (1 - Exx dt) and the
zero-rate y axis is unchanged. -/
theorem fdstag_stretch_spec_w :
    ((2 : ℝ) ≠ 0) ∧
    (FDSTAGStretch fsW 2 0 1).dsx.ncoor 3 = fsW.dsx.ncoor 3 * (1 - 2 * 1) ∧
    (FDSTAGStretch fsW 2 0 1).dsy = fsW.dsy := by
  have h2 : (2 : ℝ) ≠ 0 := by norm_num
  have hx := (fdstag_stretch_spec fsW 2 0 1).2.2.2.1 h2
  have hprops := (fdstag_stretch_spec fsW 2 0 1).2.2.2.2.2.2 fsW.dsx fsW.msx (2 * 1)
  have hy := (fdstag_stretch_spec fsW 2 0 1).2.1 rfl
  refine ⟨h2, ?_, hy.1⟩
  rw [hx.1]
  exact hprops.1 3

/-! ## Segment coordinate generation (MeshSeg1DGenCoord, C5) -/

/-- Running value of the C loop for(i = 0, sum = 0; i < n; i++) sum += i,
that is 0 + 1 + ... + (n - 1), as an integer. -/
def triSum : ℕ → ℤ
  | 0 => 0
  | n + 1 => triSum n + n

/-- Unfolding equation for triSum. -/
theorem triSum_succ (n : ℕ) : triSum (n + 1) = triSum n + n := rfl

/-- Twice the triangular sum is n(n-1). -/
theorem triSum_mul_two (n : ℕ) : triSum n * 2 = (n : ℤ) * ((n : ℤ) - 1) := by
  induction n with
  | zero => simp [triSum]
  | succ n ih =>
    rw [triSum_succ]
    push_cast
    push_cast at ih
    linear_combination ih

/-- Triangular sum of a shifted argument. -/
theorem triSum_add (a : ℤ) (ha : 0 ≤ a) (t : ℕ) :
    triSum (a + t).toNat = triSum a.toNat + t * a + triSum t := by
  induction t with
  | zero => simp [triSum]
  | succ t ih =>
    have h1 : (a + (t + 1 : ℕ)).toNat = (a + t).toNat + 1 := by omega
    have h2 : ((a + t).toNat : ℤ) = a + t := Int.toNat_of_nonneg (by omega)
    rw [h1, triSum_succ, ih, h2, triSum_succ]
    push_cast
    ring

/-- The biased-coordinate generation loop of MeshSeg1DGenCoord, threading
the running increment sum exactly as the C code does: the node at loop
counter i gets xstart + (istart + i) begSz + sum dx, then sum grows by
istart + i. -/
def biasedNodeLoop (xs begSz dx : ℝ) (istart : ℤ) : ℕ → ℕ → ℤ → List ℝ
  | _, 0, _ => []
  | i, nl + 1, sum =>
      (xs + ((istart + (i : ℤ) : ℤ) : ℝ) * begSz + ((sum : ℤ) : ℝ) * dx) ::
        biasedNodeLoop xs begSz dx istart (i + 1) nl (sum + istart + (i : ℤ))

/-- Length of the biased loop output. -/
theorem biasedNodeLoop_length (xs begSz dx : ℝ) (istart : ℤ) :
    ∀ (nl i : ℕ) (sum : ℤ), (biasedNodeLoop xs begSz dx istart i nl sum).length = nl := by
  intro nl
  induction nl with
  | zero => intro i sum; rfl
  | succ nl ih =>
    intro i sum
    rw [biasedNodeLoop, List.length_cons, ih]

/-- Element formula for the biased loop: position t holds
xs + (istart + i + t) begSz + (sum + t (istart + i) + triSum t) dx. -/
theorem biasedNodeLoop_getD (xs begSz dx : ℝ) (istart : ℤ) :
    ∀ (nl t i : ℕ) (sum : ℤ), t < nl →
      (biasedNodeLoop xs begSz dx istart i nl sum).getD t 0 =
        xs + ((istart + i + t : ℤ) : ℝ) * begSz +
          ((sum + t * (istart + (i : ℤ)) + triSum t : ℤ) : ℝ) * dx := by
  intro nl
  induction nl with
  | zero => intro t i sum ht; omega
  | succ nl ih =>
    intro t i sum ht
    match t with
    | 0 =>
      rw [biasedNodeLoop, List.getD_cons_zero, show triSum 0 = (0 : ℤ) from rfl]
      push_cast
      ring
    | u + 1 =>
      rw [biasedNodeLoop, List.getD_cons_succ, ih u (i + 1) _ (by omega)]
      have hz : (sum + istart + (i : ℤ)) + u * (istart + ((i + 1 : ℕ) : ℤ)) + triSum u =
          sum + ((u + 1 : ℕ) : ℤ) * (istart + (i : ℤ)) + triSum (u + 1) := by
        rw [triSum_succ]
        push_cast
        ring
      rw [hz]
      push_cast
      ring

/-- The pre-override node list generated for one segment slice by
MeshSeg1DGenCoord: the uniform branch emits xstart + (istart + i) avgSz,
the biased branch runs the accumulating loop seeded with the triangular
sum of istart. -/
def meshSegCrd (ms : MeshSeg1D) (iseg : ℕ) (nl : ℕ) (istart : ℤ) : List ℝ :=
  let N : ℤ := ms.istart (iseg + 1) - ms.istart iseg + 1
  let M : ℤ := N - 1
  let xstart := ms.xstart iseg
  let xclose := ms.xstart (iseg + 1)
  let bias := ms.biases iseg
  let avgSz := (xclose - xstart) / ((M : ℤ) : ℝ)
  if bias = 1.0 then
    (List.range nl).map (fun (i : ℕ) => xstart + ((istart + (i : ℤ) : ℤ) : ℝ) * avgSz)
  else
    let begSz := 2.0 * avgSz / (1.0 + bias)
    let endSz := bias * begSz
    let dx := (endSz - begSz) / ((M - 1 : ℤ) : ℝ)
    biasedNodeLoop xstart begSz dx istart 0 nl (triSum istart.toNat)

/-- MeshSeg1DGenCoord: (partially) mesh segment iseg with (optionally)
biased element size, generating nl node coordinates starting at in-segment
node index istart; the last node of the segment, when generated, is
overridden to the closing coordinate.  (With nl = 0 and istart = N the C
code writes crd[-1], outside the requested range; on the list model the
corresponding List.set call on the empty list is a no-op.) -/
def MeshSeg1DGenCoord (ms : MeshSeg1D) (iseg : ℕ) (nl : ℕ) (istart : ℤ) : List ℝ :=
  let N : ℤ := ms.istart (iseg + 1) - ms.istart iseg + 1
  if istart + nl = N then (meshSegCrd ms iseg nl istart).set (nl - 1) (ms.xstart (iseg + 1))
  else meshSegCrd ms iseg nl istart

/-- The node-coordinate formula of one segment, before the closing
override: the uniform branch value, or the biased accumulated value at
global in-segment index n. -/
def segFormula (ms : MeshSeg1D) (iseg : ℕ) (n : ℤ) : ℝ :=
  let N : ℤ := ms.istart (iseg + 1) - ms.istart iseg + 1
  let M : ℤ := N - 1
  let xstart := ms.xstart iseg
  let xclose := ms.xstart (iseg + 1)
  let bias := ms.biases iseg
  let avgSz := (xclose - xstart) / ((M : ℤ) : ℝ)
  if bias = 1.0 then xstart + ((n : ℤ) : ℝ) * avgSz
  else
    let begSz := 2.0 * avgSz / (1.0 + bias)
    let endSz := bias * begSz
    let dx := (endSz - begSz) / ((M - 1 : ℤ) : ℝ)
    xstart + ((n : ℤ) : ℝ) * begSz + ((triSum n.toNat : ℤ) : ℝ) * dx

/-- Length of the pre-override list. -/
theorem meshSegCrd_length (ms : MeshSeg1D) (iseg nl : ℕ) (istart : ℤ) :
    (meshSegCrd ms iseg nl istart).length = nl := by
  simp only [meshSegCrd]
  split
  · rw [List.length_map, List.length_range]
  · rw [biasedNodeLoop_length]

/-- Length of the generated node list. -/
theorem meshSeg1DGenCoord_length (ms : MeshSeg1D) (iseg nl : ℕ) (istart : ℤ) :
    (MeshSeg1DGenCoord ms iseg nl istart).length = nl := by
  simp only [MeshSeg1DGenCoord]
  split
  · rw [List.length_set, meshSegCrd_length]
  · rw [meshSegCrd_length]

/-- Every pre-override element is the segment formula at its in-segment
index. -/
theorem meshSegCrd_getD (ms : MeshSeg1D) (iseg nl : ℕ) (ist : ℤ) (u : ℕ)
    (hist : 0 ≤ ist) (hu : u < nl) :
    (meshSegCrd ms iseg nl ist).getD u 0 = segFormula ms iseg (ist + u) := by
  rw [meshSegCrd, segFormula]
  simp only
  split
  · rw [List.getD_eq_getElem _ _ (by rw [List.length_map, List.length_range]; exact hu)]
    rw [List.getElem_map, List.getElem_range]
  · rw [biasedNodeLoop_getD _ _ _ _ nl u 0 _ hu]
    have hz : triSum ist.toNat + (u : ℤ) * (ist + ((0 : ℕ) : ℤ)) + triSum u =
        triSum (ist + u).toNat := by
      rw [triSum_add ist hist u]
      push_cast
      ring
    rw [hz]
    norm_num

/-- Element description of MeshSeg1DGenCoord: within range, the node at
position t carries the closing coordinate when it is the segment's last
node, and the segment formula at in-segment index istart + t otherwise. -/
theorem meshSeg1DGenCoord_getD (ms : MeshSeg1D) (iseg nl : ℕ) (ist : ℤ) (t : ℕ)
    (hist : 0 ≤ ist)
    (hcap : ist + nl ≤ ms.istart (iseg + 1) - ms.istart iseg + 1)
    (ht : t < nl) :
    (MeshSeg1DGenCoord ms iseg nl ist).getD t 0 =
      if ist + t = ms.istart (iseg + 1) - ms.istart iseg then ms.xstart (iseg + 1)
      else segFormula ms iseg (ist + t) := by
  rw [MeshSeg1DGenCoord]
  by_cases hov : ist + (nl : ℤ) = ms.istart (iseg + 1) - ms.istart iseg + 1
  · rw [if_pos hov]
    rw [List.getD_eq_getElem _ _ (by rw [List.length_set, meshSegCrd_length]; exact ht)]
    rw [List.getElem_set (by rw [List.length_set, meshSegCrd_length]; exact ht)]
    by_cases hlast : t = nl - 1
    · rw [if_pos hlast.symm, if_pos (by omega : ist + (t : ℤ) = ms.istart (iseg + 1) - ms.istart iseg)]
    · rw [if_neg (fun hc => hlast hc.symm)]
      rw [if_neg (by omega : ¬ ist + (t : ℤ) = ms.istart (iseg + 1) - ms.istart iseg)]
      rw [← List.getD_eq_getElem _ 0 (by rw [meshSegCrd_length]; exact ht)]
      exact meshSegCrd_getD ms iseg nl ist t hist ht
  · rw [if_neg hov]
    rw [if_neg (by omega : ¬ ist + (t : ℤ) = ms.istart (iseg + 1) - ms.istart iseg)]
    exact meshSegCrd_getD ms iseg nl ist t hist ht

/-- Triangular sum as the claim writes it: n(n-1)/2. -/
theorem triSum_toNat_eq (a : ℤ) (ha : 0 ≤ a) : triSum a.toNat = a * (a - 1) / 2 := by
  have h2 : ((a.toNat : ℕ) : ℤ) = a := Int.toNat_of_nonneg ha
  have hm := triSum_mul_two a.toNat
  rw [h2] at hm
  rw [← hm, Int.mul_ediv_cancel _ (by norm_num)]

/-- C5: for a segment with M at least 1 cells, MeshSeg1DGenCoord generates
for bias = 1 the coordinates xstart + (istart + i) avg with
avg = (xclose - xstart)/M at every position (the closing override agrees
exactly in real arithmetic); for bias different from 1 the non-overridden
node of global in-segment index n = istart + i carries
xstart + n begSz + (n(n-1)/2) dx with begSz = 2 avg/(1 + bias),
endSz = bias begSz and dx = (endSz - begSz)/(M - 1); and whenever the
generated range includes the segment's last node, that node is overridden
to exactly xclose. -/
theorem meshSeg_genCoord_spec (ms : MeshSeg1D) (iseg nl : ℕ) (ist : ℤ) (t : ℕ)
    (hM : 1 ≤ ms.istart (iseg + 1) - ms.istart iseg)
    (hist : 0 ≤ ist)
    (hcap : ist + nl ≤ ms.istart (iseg + 1) - ms.istart iseg + 1)
    (ht : t < nl) :
    (ms.biases iseg = 1.0 →
      (MeshSeg1DGenCoord ms iseg nl ist).getD t 0 =
        ms.xstart iseg + ((ist + t : ℤ) : ℝ) *
          ((ms.xstart (iseg + 1) - ms.xstart iseg) /
            ((ms.istart (iseg + 1) - ms.istart iseg : ℤ) : ℝ))) ∧
    (ms.biases iseg ≠ 1.0 → ist + (t : ℤ) ≠ ms.istart (iseg + 1) - ms.istart iseg →
      (MeshSeg1DGenCoord ms iseg nl ist).getD t 0 =
        ms.xstart iseg + ((ist + t : ℤ) : ℝ) *
          (2.0 * ((ms.xstart (iseg + 1) - ms.xstart iseg) /
            ((ms.istart (iseg + 1) - ms.istart iseg : ℤ) : ℝ)) / (1.0 + ms.biases iseg)) +
        (((ist + t) * (ist + t - 1) / 2 : ℤ) : ℝ) *
          ((ms.biases iseg * (2.0 * ((ms.xstart (iseg + 1) - ms.xstart iseg) /
              ((ms.istart (iseg + 1) - ms.istart iseg : ℤ) : ℝ)) / (1.0 + ms.biases iseg)) -
            2.0 * ((ms.xstart (iseg + 1) - ms.xstart iseg) /
              ((ms.istart (iseg + 1) - ms.istart iseg : ℤ) : ℝ)) / (1.0 + ms.biases iseg)) /
            ((ms.istart (iseg + 1) - ms.istart iseg - 1 : ℤ) : ℝ))) ∧
    (ist + (nl : ℤ) = ms.istart (iseg + 1) - ms.istart iseg + 1 → t = nl - 1 →
      (MeshSeg1DGenCoord ms iseg nl ist).getD t 0 = ms.xstart (iseg + 1)) := by
  have hNM : ms.istart (iseg + 1) - ms.istart iseg + 1 - 1 =
      ms.istart (iseg + 1) - ms.istart iseg := by ring
  have hgd := meshSeg1DGenCoord_getD ms iseg nl ist t hist hcap ht
  refine ⟨?_, ?_, ?_⟩
  · intro hb
    rw [hgd]
    by_cases hc : ist + (t : ℤ) = ms.istart (iseg + 1) - ms.istart iseg
    · rw [if_pos hc, hc]
      have hM0 : ((ms.istart (iseg + 1) : ℤ) : ℝ) - ((ms.istart iseg : ℤ) : ℝ) ≠ 0 := by
        have h1 : (1 : ℝ) ≤ ((ms.istart (iseg + 1) : ℤ) : ℝ) - ((ms.istart iseg : ℤ) : ℝ) := by
          exact_mod_cast hM
        linarith
      field_simp
    · rw [if_neg hc, segFormula]
      simp only [hb, hNM, if_true]
  · intro hb hc
    rw [hgd, if_neg hc, segFormula]
    simp only [if_neg hb, hNM]
    rw [triSum_toNat_eq (ist + t) (by positivity)]
  · intro hov hlast
    rw [hgd, if_pos (by omega)]

/-- Concrete one-segment description with bias 2 for the C5 witness. -/
def msC5 : MeshSeg1D :=
  { nsegs := 1, istart := fun s => if s = 0 then 0 else 3
    xstart := fun s => if s = 0 then 0 else 1, biases := fun _ => 2 }

/-- C5 witness: on a 3-cell bias-2 segment generated in full, the last
node is overridden to the closing coordinate. -/
theorem meshSeg_genCoord_spec_w :
    (1 ≤ msC5.istart (0 + 1) - msC5.istart 0) ∧
    (MeshSeg1DGenCoord msC5 0 4 0).getD 3 0 = msC5.xstart (0 + 1) := by
  refine ⟨by norm_num [msC5], ?_⟩
  exact (meshSeg_genCoord_spec msC5 0 4 0 3 (by norm_num [msC5]) (by norm_num)
    (by norm_num [msC5]) (by norm_num)).2.2 (by norm_num [msC5]) rfl

/-! ## Distributed coordinate generation (Discret1DGenCoord, C6) -/

/-- The local filter and expansion loop of Discret1DGenCoord: starting at
segment i with first node to generate at global index pstart and n nodes
remaining, slice each overlapping segment (skipping non-overlapping ones
and clamping the slice length when the local range ends inside the
segment); the fuel argument counts the segments still to be scanned. -/
def Discret1DGenLoop (ms : MeshSeg1D) : ℕ → ℤ → ℕ → ℕ → List ℝ
  | _, _, _, 0 => []
  | i, pstart, n, fuel + 1 =>
      if n = 0 then []
      else
        let nlz : ℤ := ms.istart (i + 1) - pstart + 1
        if nlz < 0 then Discret1DGenLoop ms (i + 1) pstart n fuel
        else
          let nl : ℕ := min nlz.toNat n
          MeshSeg1DGenCoord ms i nl (pstart - ms.istart i) ++
            Discret1DGenLoop ms (i + 1) (pstart + nl) (n - nl) fuel

/-- Discret1DGenCoord, node-generation part: correct the first index and
the node count for the internal ghost points (one extra node on the left
when a previous process exists, two on the right when a next process
exists), then run the segment loop from segment 0. -/
def Discret1DGenCoordWindow (ms : MeshSeg1D) (pstart : ℤ) (nnods : ℕ)
    (hasPrev hasNext : Bool) : List ℝ :=
  let p := if hasPrev then pstart - 1 else pstart
  let n := nnods + (if hasPrev then 1 else 0) + (if hasNext then 2 else 0)
  Discret1DGenLoop ms 0 p n ms.nsegs

/-- Scan for the segment containing global node index g, starting at
segment s with the given fuel. -/
def segOfGo (ms : MeshSeg1D) (g : ℤ) : ℕ → ℕ → ℕ
  | s, 0 => s
  | s, fuel + 1 => if g < ms.istart (s + 1) then s else segOfGo ms g (s + 1) fuel

/-- The segment containing global node index g. -/
def segOf (ms : MeshSeg1D) (g : ℤ) : ℕ := segOfGo ms g 0 ms.nsegs

/-- The per-global-index node coordinate against which both the sequential
and the distributed generation are compared: the closing coordinate at the
final node, the segment formula of the hosting segment elsewhere. -/
def nodeCoordAux (ms : MeshSeg1D) (g : ℤ) : ℝ :=
  if g = ms.istart ms.nsegs then ms.xstart ms.nsegs
  else segFormula ms (segOf ms g) (g - ms.istart (segOf ms g))

/-- Index delimiters are monotone. -/
theorem istart_le_of_le (ms : MeshSeg1D)
    (hmono : ∀ u, u < ms.nsegs → ms.istart u < ms.istart (u + 1)) :
    ∀ (u v : ℕ), u ≤ v → v ≤ ms.nsegs → ms.istart u ≤ ms.istart v := by
  intro u v
  induction v with
  | zero =>
    intro huv _
    have h0 : u = 0 := by omega
    rw [h0]
  | succ v ih =>
    intro huv hv
    rcases Nat.lt_or_ge u (v + 1) with h | h
    · have h2 : ms.istart u ≤ ms.istart v := ih (by omega) (by omega)
      have h3 : ms.istart v < ms.istart (v + 1) := hmono v (by omega)
      omega
    · have he : u = v + 1 := by omega
      rw [he]

/-- Index delimiters are strictly monotone. -/
theorem istart_lt_of_lt (ms : MeshSeg1D)
    (hmono : ∀ u, u < ms.nsegs → ms.istart u < ms.istart (u + 1)) :
    ∀ (u v : ℕ), u < v → v ≤ ms.nsegs → ms.istart u < ms.istart v := by
  intro u v huv hv
  have h1 : ms.istart u ≤ ms.istart (v - 1) :=
    istart_le_of_le ms hmono u (v - 1) (by omega) (by omega)
  have h2 : ms.istart (v - 1) < ms.istart (v - 1 + 1) := hmono (v - 1) (by omega)
  have h3 : v - 1 + 1 = v := by omega
  rw [h3] at h2
  omega

/-- The segment scan returns the hosting segment. -/
theorem segOfGo_eq (ms : MeshSeg1D)
    (hmono : ∀ u, u < ms.nsegs → ms.istart u < ms.istart (u + 1))
    (s : ℕ) (g : ℤ) (hs : s < ms.nsegs)
    (hl : ms.istart s ≤ g) (hr : g < ms.istart (s + 1)) :
    ∀ (fuel c : ℕ), c ≤ s → s < c + fuel → segOfGo ms g c fuel = s := by
  intro fuel
  induction fuel with
  | zero =>
    intro c h1 h2
    exfalso
    omega
  | succ fuel ih =>
    intro c h1 h2
    rw [segOfGo]
    by_cases hc : g < ms.istart (c + 1)
    · rw [if_pos hc]
      rcases Nat.eq_or_lt_of_le h1 with he | hlt
      · exact he
      · exfalso
        have := istart_le_of_le ms hmono (c + 1) s hlt (by omega)
        omega
    · rw [if_neg hc]
      have hcs : c ≠ s := by
        intro he
        rw [he] at hc
        exact hc hr
      exact ih (c + 1) (by omega) (by omega)

/-- segOf returns the hosting segment. -/
theorem segOf_eq (ms : MeshSeg1D)
    (hmono : ∀ u, u < ms.nsegs → ms.istart u < ms.istart (u + 1))
    {s : ℕ} {g : ℤ} (hs : s < ms.nsegs)
    (hl : ms.istart s ≤ g) (hr : g < ms.istart (s + 1)) : segOf ms g = s :=
  segOfGo_eq ms hmono s g hs hl hr ms.nsegs 0 (by omega) (by omega)

/-- The segment formula at in-segment index 0 is the opening coordinate. -/
theorem segFormula_zero (ms : MeshSeg1D) (s : ℕ) : segFormula ms s 0 = ms.xstart s := by
  rw [segFormula]
  simp [triSum]

/-- Soundness of the generation loop: under the window invariants, the
loop produces exactly n coordinates and the coordinate at offset t is the
per-global-index node coordinate at pstart + t. -/
theorem genLoop_spec (ms : MeshSeg1D)
    (hmono : ∀ u, u < ms.nsegs → ms.istart u < ms.istart (u + 1)) :
    ∀ (fuel i : ℕ) (pstart : ℤ) (n : ℕ),
      i + fuel = ms.nsegs →
      (n ≠ 0 → ms.istart i ≤ pstart) →
      (n ≠ 0 → pstart + n ≤ ms.istart ms.nsegs + 1) →
      (n ≠ 0 → i < ms.nsegs) →
      (Discret1DGenLoop ms i pstart n fuel).length = n ∧
      (∀ t : ℕ, t < n →
        (Discret1DGenLoop ms i pstart n fuel).getD t 0 = nodeCoordAux ms (pstart + t)) := by
  intro fuel
  induction fuel with
  | zero =>
    intro i pstart n hif hseg hub hlt
    by_cases hn : n = 0
    · subst hn
      exact ⟨rfl, fun t ht => by omega⟩
    · exfalso
      have := hlt hn
      omega
  | succ fuel ih =>
    intro i pstart n hif hseg hub hlt
    by_cases hn : n = 0
    · subst hn
      constructor
      · simp [Discret1DGenLoop]
      · intro t ht
        omega
    · have hi : i < ms.nsegs := hlt hn
      have hsegi : ms.istart i ≤ pstart := hseg hn
      have hubi : pstart + n ≤ ms.istart ms.nsegs + 1 := hub hn
      have hiend : ms.istart (i + 1) ≤ ms.istart ms.nsegs :=
        istart_le_of_le ms hmono (i + 1) ms.nsegs (by omega) (le_refl _)
      simp only [Discret1DGenLoop]
      rw [if_neg hn]
      by_cases hskip : ms.istart (i + 1) - pstart + 1 < 0
      · rw [if_pos hskip]
        apply ih (i + 1) pstart n (by omega) (fun _ => by omega) (fun _ => hubi)
        intro _
        have hlt2 : ms.istart (i + 1) < ms.istart ms.nsegs := by omega
        have hne : i + 1 ≠ ms.nsegs := by
          intro he
          rw [he] at hlt2
          exact lt_irrefl _ hlt2
        omega
      · rw [if_neg hskip]
        set nlz : ℤ := ms.istart (i + 1) - pstart + 1 with hnlzdef
        set nl : ℕ := min nlz.toNat n with hnldef
        have hnlzt : (nlz.toNat : ℤ) = nlz := Int.toNat_of_nonneg (by omega)
        have hnla : nl ≤ nlz.toNat := Nat.min_le_left _ _
        have hnlb : nl ≤ n := Nat.min_le_right _ _
        have hchunklen : (MeshSeg1DGenCoord ms i nl (pstart - ms.istart i)).length = nl :=
          meshSeg1DGenCoord_length ms i nl _
        have hminl : nl < n → nl = nlz.toNat := by
          intro hnln
          rcases le_total nlz.toNat n with h | h
          · rw [hnldef]
            exact min_eq_left h
          · exfalso
            rw [hnldef] at hnln
            rw [min_eq_right h] at hnln
            exact lt_irrefl _ hnln
        have hseg2 : n - nl ≠ 0 → ms.istart (i + 1) ≤ pstart + nl := by
          intro hnz
          have hm := hminl (by omega)
          omega
        have hub2 : n - nl ≠ 0 → (pstart + nl) + (n - nl : ℕ) ≤ ms.istart ms.nsegs + 1 := by
          intro _
          push_cast
          omega
        have hlt3 : n - nl ≠ 0 → i + 1 < ms.nsegs := by
          intro hnz
          have hm := hminl (by omega)
          have hlt2 : ms.istart (i + 1) < ms.istart ms.nsegs := by omega
          have hne : i + 1 ≠ ms.nsegs := by
            intro he
            rw [he] at hlt2
            exact lt_irrefl _ hlt2
          omega
        have hrec := ih (i + 1) (pstart + nl) (n - nl) (by omega) hseg2 hub2 hlt3
        constructor
        · rw [List.length_append, hchunklen, hrec.1]
          omega
        · intro t ht
          by_cases htn : t < nl
          · rw [List.getD_append _ _ _ _ (by rw [hchunklen]; exact htn)]
            rw [meshSeg1DGenCoord_getD ms i nl (pstart - ms.istart i) t (by omega) (by omega) htn]
            by_cases hcase : pstart - ms.istart i + t = ms.istart (i + 1) - ms.istart i
            · rw [if_pos hcase]
              have hg : pstart + (t : ℤ) = ms.istart (i + 1) := by omega
              rcases Nat.lt_or_ge (i + 1) ms.nsegs with hi1 | hi1
              · have hglt : pstart + (t : ℤ) < ms.istart ms.nsegs := by
                  have := istart_lt_of_lt ms hmono (i + 1) ms.nsegs hi1 (le_refl _)
                  omega
                rw [nodeCoordAux, if_neg (by omega)]
                have hsegof : segOf ms (pstart + t) = i + 1 := by
                  apply segOf_eq ms hmono hi1 (by omega)
                  have := hmono (i + 1) hi1
                  omega
                rw [hsegof]
                rw [show pstart + (t : ℤ) - ms.istart (i + 1) = 0 from by omega]
                rw [segFormula_zero]
              · have hieq : i + 1 = ms.nsegs := by omega
                have hgend : pstart + (t : ℤ) = ms.istart ms.nsegs := by
                  rw [← hieq]
                  exact hg
                rw [nodeCoordAux, if_pos hgend, hieq]
            · rw [if_neg hcase]
              have hglt : pstart + (t : ℤ) < ms.istart (i + 1) := by omega
              rw [nodeCoordAux, if_neg (by omega)]
              have hsegof : segOf ms (pstart + t) = i :=
                segOf_eq ms hmono hi (by omega) (by omega)
              rw [hsegof]
              congr 1
              omega
          · have htn2 : nl ≤ t := by omega
            rw [List.getD_append_right _ _ _ _ (by rw [hchunklen]; exact htn2)]
            rw [hchunklen]
            rw [hrec.2 (t - nl) (by omega)]
            congr 1
            push_cast
            omega

/-- C6: for every bias, segment count and partition of the axis (any
process window, ghost corrections included), the coordinates generated by
Discret1DGenCoord agree exactly, at equal global node indices, with the
single-process generation over the whole axis; and on the axis built by
MeshSeg1DCreate the node at global index 0 carries exactly beg and the
node at the final global index carries exactly end. -/
theorem discret_genCoord_refines (beg endx : ℝ) (tcn : ℕ) (msi : MeshSegInp)
    (hmono : ∀ u, u < (MeshSeg1DCreate beg endx (tcn : ℤ) msi).nsegs →
      (MeshSeg1DCreate beg endx (tcn : ℤ) msi).istart u <
      (MeshSeg1DCreate beg endx (tcn : ℤ) msi).istart (u + 1))
    (htc : 0 < tcn)
    (pstartP : ℤ) (nP : ℕ) (hasPrev hasNext : Bool)
    (hlo : 0 ≤ (if hasPrev then pstartP - 1 else pstartP))
    (hhi : (if hasPrev then pstartP - 1 else pstartP) +
      ((nP + (if hasPrev then 1 else 0) + (if hasNext then 2 else 0) : ℕ) : ℤ) ≤
        (tcn : ℤ) + 1) :
    (∀ t : ℕ, t < nP + (if hasPrev then 1 else 0) + (if hasNext then 2 else 0) →
      (Discret1DGenCoordWindow (MeshSeg1DCreate beg endx (tcn : ℤ) msi)
          pstartP nP hasPrev hasNext).getD t 0 =
      (Discret1DGenCoordWindow (MeshSeg1DCreate beg endx (tcn : ℤ) msi)
          0 (tcn + 1) false false).getD
        ((if hasPrev then pstartP - 1 else pstartP) + t).toNat 0) ∧
    (Discret1DGenCoordWindow (MeshSeg1DCreate beg endx (tcn : ℤ) msi)
        0 (tcn + 1) false false).getD 0 0 = beg ∧
    (Discret1DGenCoordWindow (MeshSeg1DCreate beg endx (tcn : ℤ) msi)
        0 (tcn + 1) false false).getD tcn 0 = endx := by
  set ms := MeshSeg1DCreate beg endx (tcn : ℤ) msi with hms
  have hns : 0 < ms.nsegs := by
    rw [hms]
    rcases Nat.eq_zero_or_pos msi.nsegs with h | h
    · simp [MeshSeg1DCreate, h]
    · have hne : msi.nsegs ≠ 0 := by omega
      simp [MeshSeg1DCreate, hne]
      omega
  have h0 : ms.istart 0 = 0 := by
    rw [hms]
    simp [MeshSeg1DCreate]
  have hend : ms.istart ms.nsegs = (tcn : ℤ) := by
    rw [hms]
    rcases Nat.eq_zero_or_pos msi.nsegs with h | h
    · simp [MeshSeg1DCreate, h]
    · have hne : msi.nsegs ≠ 0 := by omega
      simp [MeshSeg1DCreate, hne]
  have hbeg : ms.xstart 0 = beg := by
    rw [hms]
    simp [MeshSeg1DCreate]
  have hendx : ms.xstart ms.nsegs = endx := by
    rw [hms]
    rcases Nat.eq_zero_or_pos msi.nsegs with h | h
    · simp [MeshSeg1DCreate, h]
    · have hne : msi.nsegs ≠ 0 := by omega
      simp [MeshSeg1DCreate, hne]
  have hseq := genLoop_spec ms hmono ms.nsegs 0 0 (tcn + 1 + 0 + 0) (by omega)
    (fun _ => by rw [h0]) (fun _ => by rw [hend]; push_cast; omega) (fun _ => hns)
  have hseqw : Discret1DGenCoordWindow ms 0 (tcn + 1) false false =
      Discret1DGenLoop ms 0 0 (tcn + 1 + 0 + 0) ms.nsegs := by
    simp [Discret1DGenCoordWindow]
  have hprocw : Discret1DGenCoordWindow ms pstartP nP hasPrev hasNext =
      Discret1DGenLoop ms 0 (if hasPrev then pstartP - 1 else pstartP)
        (nP + (if hasPrev then 1 else 0) + (if hasNext then 2 else 0)) ms.nsegs := by
    simp only [Discret1DGenCoordWindow]
  refine ⟨?_, ?_, ?_⟩
  · rw [hprocw, hseqw]
    generalize hgp : (if hasPrev then pstartP - 1 else pstartP) = pA at hlo hhi ⊢
    generalize hg1 : (if hasPrev then (1 : ℕ) else 0) = cP at hhi ⊢
    generalize hg2 : (if hasNext then (2 : ℕ) else 0) = cN at hhi ⊢
    intro t ht
    have hproc := genLoop_spec ms hmono ms.nsegs 0 pA (nP + cP + cN) (by omega)
      (fun _ => by rw [h0]; exact hlo)
      (fun _ => by rw [hend]; exact hhi)
      (fun _ => hns)
    rw [hproc.2 t ht]
    have hlt2 : (pA + t).toNat < tcn + 1 + 0 + 0 := by omega
    rw [hseq.2 _ hlt2]
    congr 1
    omega
  · rw [hseqw, hseq.2 0 (by omega)]
    rw [nodeCoordAux, if_neg (by rw [hend]; push_cast; omega)]
    have hsegof : segOf ms ((0 : ℤ) + (0 : ℕ)) = 0 := by
      apply segOf_eq ms hmono hns
      · rw [h0]
        norm_num
      · have h1 := hmono 0 hns
        rw [h0] at h1
        simpa using h1
    rw [hsegof]
    rw [show ((0 : ℤ) + ((0 : ℕ) : ℤ)) - ms.istart 0 = 0 from by rw [h0]; norm_num]
    rw [segFormula_zero]
    exact hbeg
  · rw [hseqw, hseq.2 tcn (by omega)]
    rw [nodeCoordAux, if_pos (by rw [hend]; push_cast; omega)]
    exact hendx

/-- Concrete two-segment input for the C6 witness: cells 2 and 3, biases 2
and 1, on the unit interval. -/
def msiW : MeshSegInp :=
  { nsegs := 2, ncells := fun sg => if sg = 0 then 2 else 3
    delims := fun _ => 0.4, biases := fun sg => if sg = 0 then 2 else 1 }

/-- C6 witness: a middle-process window (pstart 2, 2 own nodes, both
neighbors) over the 5-cell two-segment axis agrees with the sequential
generation at the shared global index, and the sequential endpoints are
exactly beg and end. -/
theorem discret_genCoord_refines_w :
    (∀ u, u < (MeshSeg1DCreate 0 1 (5 : ℤ) msiW).nsegs →
      (MeshSeg1DCreate 0 1 (5 : ℤ) msiW).istart u <
      (MeshSeg1DCreate 0 1 (5 : ℤ) msiW).istart (u + 1)) ∧
    (Discret1DGenCoordWindow (MeshSeg1DCreate 0 1 (5 : ℤ) msiW) 2 2 true true).getD 1 0 =
      (Discret1DGenCoordWindow (MeshSeg1DCreate 0 1 (5 : ℤ) msiW) 0 6 false false).getD 2 0 ∧
    (Discret1DGenCoordWindow (MeshSeg1DCreate 0 1 (5 : ℤ) msiW) 0 6 false false).getD 0 0 = 0 ∧
    (Discret1DGenCoordWindow (MeshSeg1DCreate 0 1 (5 : ℤ) msiW) 0 6 false false).getD 5 0 = 1 := by
  have hns2 : (MeshSeg1DCreate 0 1 (5 : ℤ) msiW).nsegs = 2 := by
    norm_num [MeshSeg1DCreate, msiW]
  have hmono : ∀ u, u < (MeshSeg1DCreate 0 1 (5 : ℤ) msiW).nsegs →
      (MeshSeg1DCreate 0 1 (5 : ℤ) msiW).istart u <
      (MeshSeg1DCreate 0 1 (5 : ℤ) msiW).istart (u + 1) := by
    intro u hu
    rw [hns2] at hu
    interval_cases u <;> norm_num [MeshSeg1DCreate, msiW, sumCells]
  have h := discret_genCoord_refines 0 1 5 msiW hmono (by norm_num) 2 2 true true
    (by norm_num) (by norm_num)
  refine ⟨hmono, ?_, ?_, ?_⟩
  · have := h.1 1 (by norm_num)
    simpa using this
  · simpa using h.2.1
  · simpa using h.2.2

end

end LaMEM
